import Mathlib

/-!
Verification of the Randora-Viewer batch rename and file-listing services.

The development shallowly embeds `src/app/services/batch_ops.py` and
`src/app/services/fs_service.py`.  Filesystem state is a finite set of
paths; a path is a (directory, basename) pair, mirroring how the code
only ever rewrites the final name component (`Path.with_name`).  OS-level
rename calls may fail nondeterministically; an `Env.renameOk` oracle,
indexed by a running count of rename calls, decides which calls the OS
lets succeed (a call also fails when the source path does not exist).
`uuid.uuid4().hex` is modelled by an oracle `Env.uuidHex` indexed by a
running count of uuid draws, and `Path.resolve` by an abstract
canonicalisation function `Env.resolve`.  Exceptions raised by the
caller-supplied naming function are modelled by letting it return
`Except`; `Path.with_name` itself is modelled total.
-/

namespace Randora

/-- A filesystem path, split as the code uses it: a directory part and a
final name component (`Path.with_name` rewrites only the latter). -/
structure Path where
  dir : String
  base : String
deriving DecidableEq, Repr

/-- `Path.with_name`: replace the final component. -/
def Path.withName (p : Path) (s : String) : Path :=
  ⟨p.dir, s⟩

/-- The set of files currently on disk. -/
abbrev FS := Finset Path

/-- Ambient nondeterminism: which OS rename calls succeed, which hex
strings `uuid4` produces, and how `Path.resolve` canonicalises paths. -/
structure Env where
  renameOk : Nat → Bool
  uuidHex : Nat → String
  resolve : Path → Path

/-- Mutable state threaded through a run: the filesystem plus counters of
rename calls made and uuids drawn so far. -/
structure St where
  fs : FS
  rctr : Nat
  uctr : Nat

instance : DecidableEq St := fun a b =>
  decidable_of_iff (a.fs = b.fs ∧ a.rctr = b.rctr ∧ a.uctr = b.uctr)
    (by cases a; cases b; simp [St.mk.injEq])

instance {ε α : Type} [DecidableEq ε] [DecidableEq α] :
    DecidableEq (Except ε α) := fun a b =>
  match a, b with
  | .error e1, .error e2 => decidable_of_iff (e1 = e2) (by simp)
  | .ok v1, .ok v2 => decidable_of_iff (v1 = v2) (by simp)
  | .error _, .ok _ => isFalse (fun h => Except.noConfusion h)
  | .ok _, .error _ => isFalse (fun h => Except.noConfusion h)

/-- One OS `rename(src, dest)` call.  It succeeds iff the source exists
and the oracle allows this call; on success `src` is removed and `dest`
(over)written.  The call counter advances either way. -/
def osRename (env : Env) (st : St) (src dest : Path) : Bool × St :=
  if src ∈ st.fs ∧ env.renameOk st.rctr = true then
    (true, ⟨insert dest (st.fs.erase src), st.rctr + 1, st.uctr⟩)
  else
    (false, ⟨st.fs, st.rctr + 1, st.uctr⟩)

/-- The temporary name `f"__rvtmp__{uuid.uuid4().hex}__{img.name}"` built
for the `u`-th uuid draw. -/
def tmpName (env : Env) (u : Nat) (img : Path) : String :=
  "__rvtmp__" ++ env.uuidHex u ++ "__" ++ img.base

/-- Phase 1 of `two_phase_rename`: try to move every input to a fresh
temp name; inputs whose rename raises are dropped.  Returns the
`(tmp_path, original)` pairs of the survivors, in input order. -/
def phase1 (env : Env) : List Path → St → List (Path × Path) × St
  | [], st => ([], st)
  | img :: rest, st =>
    let tmp := img.withName (tmpName env st.uctr img)
    let st1 : St := ⟨st.fs, st.rctr, st.uctr + 1⟩
    let r := osRename env st1 img tmp
    let rec1 := phase1 env rest r.2
    (if r.1 then (tmp, img) :: rec1.1 else rec1.1, rec1.2)

/-- The naming callback `build_name(idx, tmp_path, original)`; `.error`
models the callback raising, `.ok none` / `.ok (some "")` are the falsy
returns the code treats as "skip". -/
abbrev RenameBuilder := Nat → Path → Path → Except Unit (Option String)

/-- The result accumulator `(renamed, skipped, failed, replacement)`. -/
structure Result where
  renamed : Nat
  skipped : Nat
  failed : Nat
  replacement : Option Path
deriving DecidableEq, Repr

/-- Python truthiness of the returned name: `None` and `""` are falsy. -/
def strFalsy : Option String → Bool
  | none => true
  | some s => s = ""

/-- The "naming function returned a falsy value" branch: count a skip,
then best-effort rename the temp file back to its original name,
counting a fail when that restore raises. -/
def nullStep (env : Env) (acc : Result) (st : St) (tmp orig : Path) :
    Result × St :=
  let acc1 : Result := { acc with skipped := acc.skipped + 1 }
  let r := osRename env st tmp orig
  (if r.1 then acc1 else { acc1 with failed := acc1.failed + 1 }, r.2)

/-- One iteration of the phase-2 loop body for the pair
`(tmp_path, original)` at 1-based index `idx`. -/
def pairStep (env : Env) (current : Option Path) (build : RenameBuilder)
    (idx : Nat) (tmp orig : Path) (acc : Result) (st : St) :
    Except Unit (Result × St) :=
  match build idx tmp orig with
  | .error e => .error e
  | .ok nameOpt =>
    if strFalsy nameOpt then
      .ok (nullStep env acc st tmp orig)
    else
      let dest := tmp.withName (nameOpt.getD "")
      if dest ∈ st.fs then
        -- `dest.exists()`: count a skip and restore; if the restore
        -- raises, the surrounding `except` counts a fail and retries
        -- the restore once more, ignoring the outcome.
        let acc1 : Result := { acc with skipped := acc.skipped + 1 }
        let r := osRename env st tmp orig
        if r.1 then .ok (acc1, r.2)
        else
          let acc2 : Result := { acc1 with failed := acc1.failed + 1 }
          let r2 := osRename env r.2 tmp orig
          .ok (acc2, r2.2)
      else
        let r := osRename env st tmp dest
        if r.1 then
          let acc1 : Result :=
            match current with
            | some c =>
              if env.resolve orig = env.resolve c then
                { acc with replacement := some dest }
              else acc
            | none => acc
          .ok ({ acc1 with renamed := acc1.renamed + 1 }, r.2)
        else
          let acc1 : Result := { acc with failed := acc.failed + 1 }
          let r2 := osRename env r.2 tmp orig
          .ok (acc1, r2.2)

/-- Phase 2 of `two_phase_rename`: walk the surviving pairs in order with
a 1-based index, applying `pairStep` to each. -/
def phase2 (env : Env) (current : Option Path) (build : RenameBuilder) :
    List (Path × Path) → Nat → Result → St → Except Unit (Result × St)
  | [], _, acc, st => .ok (acc, st)
  | (tmp, orig) :: rest, idx, acc, st =>
    match pairStep env current build idx tmp orig acc st with
    | .error e => .error e
    | .ok (acc1, st1) => phase2 env current build rest (idx + 1) acc1 st1

/-- `two_phase_rename(images, build_name, current_path)` run on initial
filesystem `fs0`: temp-rename everything, then move each survivor to its
built name.  Returns the counters, the replacement path for the file of
interest, and the final state; `.error` models an uncaught exception. -/
def two_phase_rename (env : Env) (images : List Path)
    (build : RenameBuilder) (current : Option Path) (fs0 : FS) :
    Except Unit (Result × St) :=
  let p1 := phase1 env images ⟨fs0, 0, 0⟩
  phase2 env current build p1.1 1 ⟨0, 0, 0, none⟩ p1.2

/-! ### Derived descriptions of a run, used to state the theorems -/

/-- The temp paths phase 1 builds for `images`, starting at uuid draw
`u`: the `k`-th image gets the `(u+k)`-th uuid. -/
def tempsOf (env : Env) : Nat → List Path → List Path
  | _, [] => []
  | u, img :: rest => img.withName (tmpName env u img) :: tempsOf env (u + 1) rest

/-- The destination paths of a phase-2 run over `pairs` in which the
naming function answers the aligned list `names`. -/
def destsOf : List (Path × Path) → List String → List Path
  | [], _ => []
  | _ :: _, [] => []
  | (tmp, _) :: ps, n :: ns => tmp.withName n :: destsOf ps ns

/-- The update the success branch applies to the recorded replacement:
take the destination when the original resolves to the path of
interest, else keep the previous value. -/
def replUpdate (env : Env) (current : Option Path) (r : Option Path)
    (orig dest : Path) : Option Path :=
  match current with
  | some c => if env.resolve orig = env.resolve c then some dest else r
  | none => r

/-- The replacement path after a fully successful phase-2 run: the last
pair whose original resolves to the path of interest wins. -/
def replFold (env : Env) (current : Option Path) :
    Option Path → List (Path × Path) → List String → Option Path
  | r, [], _ => r
  | r, _ :: _, [] => r
  | r, (tmp, orig) :: ps, n :: ns =>
    replFold env current (replUpdate env current r orig (tmp.withName n)) ps ns

/-- Filesystem after a fully successful phase 1: each image in turn is
replaced by its temp path. -/
def fsAfter1 (env : Env) : FS → Nat → List Path → FS
  | fs, _, [] => fs
  | fs, u, img :: rest =>
    fsAfter1 env (insert (img.withName (tmpName env u img)) (fs.erase img)) (u + 1) rest

/-- Filesystem after a fully successful phase 2: each temp path in turn
is replaced by its destination. -/
def fsAfter2 : FS → List (Path × Path) → List String → FS
  | fs, [], _ => fs
  | fs, _ :: _, [] => fs
  | fs, (tmp, _) :: ps, n :: ns => fsAfter2 (insert (tmp.withName n) (fs.erase tmp)) ps ns

/-- Filesystem after a phase-2 run in which every file is restored to
its original name (the all-falsy-names case). -/
def fsRestore : FS → List (Path × Path) → FS
  | fs, [] => fs
  | fs, (tmp, orig) :: ps => fsRestore (insert orig (fs.erase tmp)) ps

/-! ### The `with_name` error path and a per-pair outcome log

`Path.with_name` raises `ValueError` when the path has no final name or
when the new name is empty, contains a separator, or is `"."`; the code
calls it outside any `try` at two places (building the temp name, and
building the destination from the naming function's answer).  The `V`
variants below refine the embedding with this error path; the plain
variants above model `with_name` total, which only matters for claims
about exception propagation.  `phase2L` additionally logs, per pair,
whether its final rename succeeded and to which destination. -/

/-- Validity of a new name for `Path.with_name` (POSIX): nonempty, no
separator, not `"."`; otherwise `with_name` raises `ValueError`. -/
def validName (s : String) : Bool :=
  !(s == "") && !(s.data.contains '/') && !(s == ".")

/-- Phase 1 with the `with_name` error path: building the temp name for
a path with an empty final name, or building an invalid temp name,
raises out of the whole operation (the call sits outside the `try`). -/
def phase1V (env : Env) : List Path → St → Except Unit (List (Path × Path) × St)
  | [], st => .ok ([], st)
  | img :: rest, st =>
    if img.base = "" ∨ validName (tmpName env st.uctr img) = false then
      .error ()
    else
      let tmp := img.withName (tmpName env st.uctr img)
      let st1 : St := ⟨st.fs, st.rctr, st.uctr + 1⟩
      let r := osRename env st1 img tmp
      match phase1V env rest r.2 with
      | .error e => .error e
      | .ok (ps, st2) => .ok (if r.1 then (tmp, img) :: ps else ps, st2)

/-- The phase-2 loop body with the `with_name` error path: a truthy but
invalid name makes `tmp_path.with_name(new_name)` raise `ValueError`
before the `try` block is entered. -/
def pairStepV (env : Env) (current : Option Path) (build : RenameBuilder)
    (idx : Nat) (tmp orig : Path) (acc : Result) (st : St) :
    Except Unit (Result × St) :=
  match build idx tmp orig with
  | .error e => .error e
  | .ok nameOpt =>
    if strFalsy nameOpt then
      .ok (nullStep env acc st tmp orig)
    else if validName (nameOpt.getD "") = false then
      .error ()
    else
      let dest := tmp.withName (nameOpt.getD "")
      if dest ∈ st.fs then
        let acc1 : Result := { acc with skipped := acc.skipped + 1 }
        let r := osRename env st tmp orig
        if r.1 then .ok (acc1, r.2)
        else
          let acc2 : Result := { acc1 with failed := acc1.failed + 1 }
          let r2 := osRename env r.2 tmp orig
          .ok (acc2, r2.2)
      else
        let r := osRename env st tmp dest
        if r.1 then
          let acc1 : Result :=
            match current with
            | some c =>
              if env.resolve orig = env.resolve c then
                { acc with replacement := some dest }
              else acc
            | none => acc
          .ok ({ acc1 with renamed := acc1.renamed + 1 }, r.2)
        else
          let acc1 : Result := { acc with failed := acc.failed + 1 }
          let r2 := osRename env r.2 tmp orig
          .ok (acc1, r2.2)

/-- Phase 2 with the `with_name` error path. -/
def phase2V (env : Env) (current : Option Path) (build : RenameBuilder) :
    List (Path × Path) → Nat → Result → St → Except Unit (Result × St)
  | [], _, acc, st => .ok (acc, st)
  | (tmp, orig) :: rest, idx, acc, st =>
    match pairStepV env current build idx tmp orig acc st with
    | .error e => .error e
    | .ok (acc1, st1) => phase2V env current build rest (idx + 1) acc1 st1

/-- `two_phase_rename` with the `with_name` error path modelled. -/
def two_phase_renameV (env : Env) (images : List Path)
    (build : RenameBuilder) (current : Option Path) (fs0 : FS) :
    Except Unit (Result × St) :=
  match phase1V env images ⟨fs0, 0, 0⟩ with
  | .error e => .error e
  | .ok (pairs, st1) => phase2V env current build pairs 1 ⟨0, 0, 0, none⟩ st1

/-- Whether the phase-2 iteration for a pair, started at state `st`,
renames the file, and to which destination: truthy name, destination
not on disk, and rename allowed by the OS. -/
def pairOutcome (env : Env) (build : RenameBuilder) (idx : Nat)
    (tmp orig : Path) (st : St) : Option Path :=
  match build idx tmp orig with
  | .error _ => none
  | .ok v =>
    if strFalsy v then none
    else if tmp.withName (v.getD "") ∈ st.fs then none
    else if tmp ∈ st.fs ∧ env.renameOk st.rctr = true then
      some (tmp.withName (v.getD ""))
    else none

/-- The replacement update induced by a logged outcome: a successful
rename of a pair whose original resolves to the path of interest
records its destination. -/
def replUpdateL (env : Env) (current : Option Path) (r : Option Path)
    (orig : Path) (o : Option Path) : Option Path :=
  match current, o with
  | some c, some d => if env.resolve orig = env.resolve c then some d else r
  | _, _ => r

/-- The replacement after a run with logged outcomes: the last
successfully renamed matching pair wins. -/
def replFoldL (env : Env) (current : Option Path) :
    Option Path → List (Path × Path) → List (Option Path) → Option Path
  | r, [], _ => r
  | r, _ :: _, [] => r
  | r, (_, orig) :: ps, o :: os =>
    replFoldL env current (replUpdateL env current r orig o) ps os

/-- Phase 2 instrumented with the per-pair outcome log; the computation
is that of `phase2`, with each pair's outcome read off its pre-state. -/
def phase2L (env : Env) (current : Option Path) (build : RenameBuilder) :
    List (Path × Path) → Nat → Result → St →
      Except Unit (Result × St × List (Option Path))
  | [], _, acc, st => .ok (acc, st, [])
  | (tmp, orig) :: rest, idx, acc, st =>
    match pairStep env current build idx tmp orig acc st with
    | .error e => .error e
    | .ok (acc1, st1) =>
      match phase2L env current build rest (idx + 1) acc1 st1 with
      | .error e => .error e
      | .ok (acc2, st2, log) =>
        .ok (acc2, st2, pairOutcome env build idx tmp orig st :: log)

/-! ### Concrete inputs for the scenario checks and counterexamples -/

/-- Environment in which every OS rename succeeds; uuid draws are the
decimal numerals, path resolution is the identity. -/
def envA : Env := ⟨fun _ => true, fun n => toString n, id⟩

/-- Environment in which only the very first OS rename call succeeds. -/
def envB : Env := ⟨fun n => n == 0, fun n => toString n, id⟩

/-- Environment in which every OS rename call fails. -/
def envC : Env := ⟨fun _ => false, fun n => toString n, id⟩

def pa : Path := ⟨"/f", "a.jpg"⟩
def pb : Path := ⟨"/f", "b.jpg"⟩
def pimg1 : Path := ⟨"/f", "img_1.jpg"⟩
def pimg2 : Path := ⟨"/f", "img_2.jpg"⟩

/-- The naming function `f"img_{idx}.jpg"`. -/
def buildImg : RenameBuilder :=
  fun idx _ _ => .ok (some ("img_" ++ toString idx ++ ".jpg"))

/-- A naming function that always returns `None`. -/
def buildNone : RenameBuilder := fun _ _ _ => .ok none

/-- A naming function that raises on every call. -/
def buildRaise : RenameBuilder := fun _ _ _ => .error ()

/-- A naming function that always answers `"a.jpg"`. -/
def buildA : RenameBuilder := fun _ _ _ => .ok (some "a.jpg")

/-- A naming function that answers a separator-containing name, on
which `Path.with_name` raises `ValueError`. -/
def buildSlash : RenameBuilder := fun _ _ _ => .ok (some "a/b.jpg")

/-- Environment with path-safe constant uuid draws and no rename
failures. -/
def envD : Env := ⟨fun _ => true, fun _ => "u", id⟩

/-! ## The file-listing service (`fs_service.py`)

A directory is a tree of named entries.  A `file` entry carries a flag
saying whether inspecting it (the `is_file`/`suffix` check) raises
`OSError`.  Full paths are component lists, compared the way `sorted`
compares `pathlib` paths: lexicographically on the component tuple. -/

/-- A directory-tree entry. -/
inductive Entry where
  | file (name : String) (raises : Bool) : Entry
  | dir (name : String) (children : List Entry) : Entry

/-- A path yielded by the traversal, with the metadata the filter
inspects: full component list, final name, kind, and whether inspecting
it raises `OSError`. -/
structure Item where
  parts : List String
  name : String
  isFile : Bool
  raises : Bool
deriving DecidableEq, Repr

/-- `base.iterdir()`: the direct children only. -/
def itemsIterdir (base : List String) (es : List Entry) : List Item :=
  es.map fun e =>
    match e with
    | .file n r => ⟨base ++ [n], n, true, r⟩
    | .dir n _ => ⟨base ++ [n], n, false, false⟩

/-- `base.rglob("*")`: every entry of the whole tree. -/
def itemsRglob (base : List String) : List Entry → List Item
  | [] => []
  | .file n r :: rest => ⟨base ++ [n], n, true, r⟩ :: itemsRglob base rest
  | .dir n cs :: rest =>
    ⟨base ++ [n], n, false, false⟩ ::
      (itemsRglob (base ++ [n]) cs ++ itemsRglob base rest)

/-- Index of the last `'.'` in a character list, if any. -/
def lastDot : List Char → Option Nat
  | [] => none
  | c :: cs =>
    match lastDot cs with
    | some i => some (i + 1)
    | none => if c = '.' then some 0 else none

/-- `PurePath.suffix` of a final name component: the part from the last
dot on, unless that dot is the first or the last character. -/
def suffixOf (name : String) : String :=
  match lastDot name.data with
  | some i =>
    if 0 < i ∧ i < name.data.length - 1 then String.mk (name.data.drop i) else ""
  | none => ""

/-- `ext.startswith(".")`. -/
def startsWithDot (e : String) : Bool :=
  match e.data with
  | [] => false
  | c :: _ => c = '.'

/-- `IMAGE_EXTENSIONS`, the default allowed-extension set. -/
def IMAGE_EXTENSIONS : List String :=
  [".png", ".jpg", ".jpeg", ".bmp", ".gif", ".webp", ".tif", ".tiff"]

/-- `_normalize_extensions`: lowercase, and add a leading dot where
missing; `None` selects the default image set. -/
def normalizeExtensions : Option (List String) → List String
  | none => IMAGE_EXTENSIONS
  | some exts =>
    exts.map fun e => if startsWithDot e then e.toLower else "." ++ e.toLower

/-- The body of the traversal filter: skip entries whose inspection
raises; keep files whose lowercased suffix is allowed. -/
def keepItem (allowed : List String) (it : Item) : Bool :=
  !it.raises && (it.isFile && allowed.contains (suffixOf it.name).toLower)

/-- The ambient filesystem for the listing service: tilde expansion and
the directory map (`none` when the expanded path is not a directory). -/
structure FsWorld where
  expand : String → String
  dirOf : String → Option (List Entry)

/-- `iter_image_files(folder, recursive, extensions)`, forced to a list;
`.error` models the `ValueError` raised for a non-directory. -/
def iter_image_files (w : FsWorld) (folder : String) (recursive : Bool)
    (extensions : Option (List String)) : Except String (List Item) :=
  let base := w.expand folder
  match w.dirOf base with
  | none => .error ("Not a directory: " ++ base)
  | some children =>
    let allowed := normalizeExtensions extensions
    let items :=
      if recursive then itemsRglob [base] children else itemsIterdir [base] children
    .ok (items.filter (keepItem allowed))

/-- How `sorted` compares `pathlib` paths: lexicographic comparison of
the component tuples, components compared as strings. -/
def pathLe : List String → List String → Bool
  | [], _ => true
  | _ :: _, [] => false
  | a :: as, b :: bs => if a = b then pathLe as bs else decide (a < b)

/-- `list_images(folder, recursive, extensions)`: the traversal,
collected and sorted. -/
def list_images (w : FsWorld) (folder : String) (recursive : Bool)
    (extensions : Option (List String)) : Except String (List (List String)) :=
  match iter_image_files w folder recursive extensions with
  | .error e => .error e
  | .ok items => .ok ((items.map Item.parts).mergeSort pathLe)

/-- A world in which no path is a directory. -/
def wNone : FsWorld := ⟨id, fun _ => none⟩

/-- A world with one folder `/d` holding two files and a subfolder. -/
def wDemo : FsWorld :=
  ⟨id, fun s =>
    if s = "/d" then
      some [.file "x.JPG" false, .file "notes.txt" false,
            .dir "sub" [.file "y.png" false]]
    else none⟩

/-! ## Basic facts about single rename calls and phase 1 -/

theorem osRename_pos {env : Env} {st : St} {src dest : Path}
    (h1 : src ∈ st.fs) (h2 : env.renameOk st.rctr = true) :
    osRename env st src dest =
      (true, ⟨insert dest (st.fs.erase src), st.rctr + 1, st.uctr⟩) := by
  simp [osRename, h1, h2]

theorem osRename_neg {env : Env} {st : St} {src dest : Path}
    (h : ¬(src ∈ st.fs ∧ env.renameOk st.rctr = true)) :
    osRename env st src dest = (false, ⟨st.fs, st.rctr + 1, st.uctr⟩) := by
  simp only [osRename, if_neg h]

theorem tempsOf_length (env : Env) :
    ∀ (u : Nat) (images : List Path),
      (tempsOf env u images).length = images.length
  | _, [] => rfl
  | u, _ :: rest => by simp [tempsOf, tempsOf_length env (u + 1) rest]

/-- Phase 1 with no rename failures: every image is moved to its temp
path, in order; counters advance once per image. -/
theorem phase1_ok_run (env : Env) (hok : ∀ n, env.renameOk n = true) :
    ∀ (images : List Path) (st : St), images.Nodup →
      (∀ i ∈ images, i ∈ st.fs) →
      phase1 env images st =
        ((tempsOf env st.uctr images).zip images,
         ⟨fsAfter1 env st.fs st.uctr images,
          st.rctr + images.length, st.uctr + images.length⟩) := by
  intro images
  induction images with
  | nil => intro st _ _; simp [phase1, tempsOf, fsAfter1]
  | cons img rest ih =>
    intro st hnd hsub
    have himg : img ∈ st.fs := hsub img (by simp)
    have hstep :
        osRename env ⟨st.fs, st.rctr, st.uctr + 1⟩ img
            (img.withName (tmpName env st.uctr img)) =
          (true, ⟨insert (img.withName (tmpName env st.uctr img)) (st.fs.erase img),
                  st.rctr + 1, st.uctr + 1⟩) :=
      osRename_pos himg (hok st.rctr)
    have hrest :
        phase1 env rest
            ⟨insert (img.withName (tmpName env st.uctr img)) (st.fs.erase img),
             st.rctr + 1, st.uctr + 1⟩ =
          ((tempsOf env (st.uctr + 1) rest).zip rest,
           ⟨fsAfter1 env (insert (img.withName (tmpName env st.uctr img)) (st.fs.erase img))
              (st.uctr + 1) rest,
            st.rctr + 1 + rest.length, st.uctr + 1 + rest.length⟩) := by
      have hsub2 : ∀ i ∈ rest, i ∈
          (insert (img.withName (tmpName env st.uctr img)) (st.fs.erase img) : FS) := by
        intro i hi
        have : i ≠ img := by
          rintro rfl
          exact (List.nodup_cons.mp hnd).1 hi
        exact Finset.mem_insert_of_mem (Finset.mem_erase.mpr ⟨this, hsub i (by simp [hi])⟩)
      exact ih _ (List.nodup_cons.mp hnd).2 hsub2
    simp only [phase1, hstep, hrest, tempsOf, fsAfter1, List.zip_cons_cons,
      List.length_cons, if_true]
    simp only [Prod.mk.injEq, St.mk.injEq, true_and]
    exact ⟨by omega, by omega⟩

/-- Phase 1 when every OS rename fails: nothing survives, the
filesystem is untouched, the counters still advance. -/
theorem phase1_fail_run (env : Env) (hfail : ∀ n, env.renameOk n = false) :
    ∀ (images : List Path) (st : St),
      phase1 env images st =
        ([], ⟨st.fs, st.rctr + images.length, st.uctr + images.length⟩) := by
  intro images
  induction images with
  | nil => intro st; simp [phase1]
  | cons img rest ih =>
    intro st
    have hstep :
        osRename env ⟨st.fs, st.rctr, st.uctr + 1⟩ img
            (img.withName (tmpName env st.uctr img)) =
          (false, ⟨st.fs, st.rctr + 1, st.uctr + 1⟩) := by
      refine osRename_neg ?_
      rintro ⟨-, hok⟩
      simp [hfail] at hok
    simp only [phase1, hstep, ih, List.length_cons, if_false, Bool.false_eq_true]
    simp only [Prod.mk.injEq, St.mk.injEq, true_and]
    exact ⟨by omega, by omega⟩

/-- The surviving originals of phase 1 form a subsequence of the input:
processing order equals input order and dropped files are simply
omitted. -/
theorem phase1_snd_sublist (env : Env) :
    ∀ (images : List Path) (st : St),
      List.Sublist ((phase1 env images st).1.map Prod.snd) images := by
  intro images
  induction images with
  | nil => intro st; simp [phase1]
  | cons img rest ih =>
    intro st
    simp only [phase1]
    set r := osRename env ⟨st.fs, st.rctr, st.uctr + 1⟩ img
      (img.withName (tmpName env st.uctr img)) with hr
    by_cases hb : r.1 = true
    · simpa [hb] using List.Sublist.cons₂ img (ih r.2)
    · simp only [hb, if_false]
      exact List.Sublist.cons img (ih r.2)

/-- Membership in the filesystem left by a fully successful phase 1:
the temp files, plus everything that was not an input. -/
theorem mem_fsAfter1 (env : Env) :
    ∀ (images : List Path) (fs : FS) (u : Nat), images.Nodup →
      (∀ i ∈ images, i ∈ fs) →
      (tempsOf env u images).Nodup →
      (∀ t ∈ tempsOf env u images, t ∉ fs) →
      ∀ p : Path,
        (p ∈ fsAfter1 env fs u images ↔
          p ∈ tempsOf env u images ∨ (p ∈ fs ∧ p ∉ images)) := by
  intro images
  induction images with
  | nil => intro fs u _ _ _ _ p; simp [fsAfter1, tempsOf]
  | cons img rest ih =>
    intro fs u hnd hsub htnd htfs p
    have hTmp : img.withName (tmpName env u img) ∉ fs := htfs _ (by simp [tempsOf])
    have hTmpRest : img.withName (tmpName env u img) ∉ tempsOf env (u + 1) rest := by
      have := List.nodup_cons.mp (by simpa [tempsOf] using htnd)
      exact this.1
    have hImgFs : img ∈ fs := hsub img (by simp)
    have hImgT : img ∉ tempsOf env (u + 1) rest := by
      intro hmem
      exact htfs img (by simp [tempsOf, hmem]) hImgFs
    have hTmpNotRest : img.withName (tmpName env u img) ∉ rest := by
      intro hmem
      exact hTmp (hsub _ (by simp [hmem]))
    have hrec := ih (insert (img.withName (tmpName env u img)) (fs.erase img)) (u + 1)
      (List.nodup_cons.mp hnd).2
      (by
        intro i hi
        have hine : i ≠ img := by
          rintro rfl
          exact (List.nodup_cons.mp hnd).1 hi
        exact Finset.mem_insert_of_mem (Finset.mem_erase.mpr ⟨hine, hsub i (by simp [hi])⟩))
      (by
        have := List.nodup_cons.mp (by simpa [tempsOf] using htnd)
        exact this.2)
      (by
        intro t ht
        have ht1 : t ∉ fs := htfs t (by simp [tempsOf, ht])
        have ht2 : t ≠ img.withName (tmpName env u img) := by
          rintro rfl
          exact hTmpRest ht
        simp [Finset.mem_insert, Finset.mem_erase, ht1, ht2])
      p
    simp only [fsAfter1, tempsOf] at hrec ⊢
    rw [hrec]
    by_cases hp1 : p = img.withName (tmpName env u img)
    · subst hp1
      simp [Finset.mem_insert, hTmpRest, hTmpNotRest, hTmp]
    · by_cases hp2 : p = img
      · subst hp2
        simp [Finset.mem_insert, Finset.mem_erase, hp1, hImgT]
      · simp only [Finset.mem_insert, Finset.mem_erase, List.mem_cons]
        tauto

/-! ## Single iterations of the phase-2 loop -/

/-- A phase-2 iteration in the happy path: truthy name, destination not
on disk, rename allowed.  The file moves to its destination, `renamed`
grows, and the replacement is recorded when the original resolves to
the path of interest. -/
theorem pairStep_ok (env : Env) (current : Option Path)
    (build : RenameBuilder) (idx : Nat) (tmp orig : Path) (acc : Result)
    (st : St) (n : String)
    (hb : build idx tmp orig = .ok (some n)) (hn : n ≠ "")
    (htmp : tmp ∈ st.fs) (hok : env.renameOk st.rctr = true)
    (hd : tmp.withName n ∉ st.fs) :
    pairStep env current build idx tmp orig acc st =
      .ok (⟨acc.renamed + 1, acc.skipped, acc.failed,
            replUpdate env current acc.replacement orig (tmp.withName n)⟩,
           ⟨insert (tmp.withName n) (st.fs.erase tmp), st.rctr + 1, st.uctr⟩) := by
  have hf : strFalsy (some n) = false := by simp [strFalsy, hn]
  simp only [pairStep, hb, hf, Bool.false_eq_true, if_false, Option.getD_some,
    if_neg hd, osRename_pos htmp hok, if_true]
  cases current with
  | none => rfl
  | some c =>
    by_cases hm : env.resolve orig = env.resolve c <;> simp [replUpdate, hm]

/-- A phase-2 iteration for a falsy name whose restore rename succeeds:
one skip, and the file is back under its original name. -/
theorem pairStep_null_pos (env : Env) (current : Option Path)
    (build : RenameBuilder) (idx : Nat) (tmp orig : Path) (acc : Result)
    (st : St) (v : Option String)
    (hb : build idx tmp orig = .ok v) (hv : strFalsy v = true)
    (htmp : tmp ∈ st.fs) (hok : env.renameOk st.rctr = true) :
    pairStep env current build idx tmp orig acc st =
      .ok ({ acc with skipped := acc.skipped + 1 },
           ⟨insert orig (st.fs.erase tmp), st.rctr + 1, st.uctr⟩) := by
  simp only [pairStep, hb, hv, if_true, nullStep, osRename_pos htmp hok]

/-- A phase-2 iteration for a falsy name whose restore rename fails:
the code counts the same file both as skipped and as failed, and it
stays under its temp name. -/
theorem pairStep_null_neg (env : Env) (current : Option Path)
    (build : RenameBuilder) (idx : Nat) (tmp orig : Path) (acc : Result)
    (st : St) (v : Option String)
    (hb : build idx tmp orig = .ok v) (hv : strFalsy v = true)
    (hfail : ¬(tmp ∈ st.fs ∧ env.renameOk st.rctr = true)) :
    pairStep env current build idx tmp orig acc st =
      .ok ({ acc with skipped := acc.skipped + 1, failed := acc.failed + 1 },
           ⟨st.fs, st.rctr + 1, st.uctr⟩) := by
  simp only [pairStep, hb, hv, if_true, nullStep, osRename_neg hfail,
    Bool.false_eq_true, if_false]

/-- A phase-2 iteration that finds its destination already on disk and
restores successfully: one skip, the file back under its original
name, the destination untouched. -/
theorem pairStep_exists (env : Env) (current : Option Path)
    (build : RenameBuilder) (idx : Nat) (tmp orig : Path) (acc : Result)
    (st : St) (n : String)
    (hb : build idx tmp orig = .ok (some n)) (hn : n ≠ "")
    (hd : tmp.withName n ∈ st.fs)
    (htmp : tmp ∈ st.fs) (hok : env.renameOk st.rctr = true) :
    pairStep env current build idx tmp orig acc st =
      .ok ({ acc with skipped := acc.skipped + 1 },
           ⟨insert orig (st.fs.erase tmp), st.rctr + 1, st.uctr⟩) := by
  have hf : strFalsy (some n) = false := by simp [strFalsy, hn]
  simp only [pairStep, hb, hf, Bool.false_eq_true, if_false, Option.getD_some,
    if_pos hd, osRename_pos htmp hok, if_true]

/-! ## Whole phase-2 runs -/

/-- Phase 2 with no rename failures and a truthy, fresh, pairwise
distinct name for every pair: every pair is renamed, nothing is skipped
or failed, and the replacement is the fold over the matches. -/
theorem phase2_ok_run (env : Env) (current : Option Path)
    (build : RenameBuilder) (hok : ∀ n, env.renameOk n = true) :
    ∀ (pairs : List (Path × Path)) (names : List String) (idx : Nat)
      (acc : Result) (st : St),
      pairs.length = names.length →
      (∀ (k : Nat) (hk : k < pairs.length) (hn : k < names.length),
        build (idx + k) (pairs.get ⟨k, hk⟩).1 (pairs.get ⟨k, hk⟩).2 =
            .ok (some (names.get ⟨k, hn⟩)) ∧ names.get ⟨k, hn⟩ ≠ "") →
      (∀ q ∈ pairs, q.1 ∈ st.fs) →
      (pairs.map Prod.fst).Nodup →
      (∀ d ∈ destsOf pairs names, d ∉ st.fs) →
      (destsOf pairs names).Nodup →
      phase2 env current build pairs idx acc st =
        .ok (⟨acc.renamed + pairs.length, acc.skipped, acc.failed,
              replFold env current acc.replacement pairs names⟩,
             ⟨fsAfter2 st.fs pairs names, st.rctr + pairs.length, st.uctr⟩) := by
  intro pairs
  induction pairs with
  | nil =>
    intro names idx acc st _ _ _ _ _ _
    simp [phase2, replFold, fsAfter2]
  | cons pr ps ih =>
    obtain ⟨tmp, orig⟩ := pr
    intro names idx acc st hlen hb hfs hnd hdfs hdnd
    cases names with
    | nil => simp at hlen
    | cons n ns =>
      have h0 := hb 0 (by simp) (by simp)
      have hb0 : build idx tmp orig = .ok (some n) := by simpa using h0.1
      have hn0 : n ≠ "" := by simpa using h0.2
      have htmp : tmp ∈ st.fs := hfs (tmp, orig) (by simp)
      have hd0 : tmp.withName n ∉ st.fs := hdfs _ (by simp [destsOf])
      have hstep := pairStep_ok env current build idx tmp orig acc st n
        hb0 hn0 htmp (hok st.rctr) hd0
      have hb2 : ∀ (k : Nat) (hk : k < ps.length) (hn2 : k < ns.length),
          build ((idx + 1) + k) (ps.get ⟨k, hk⟩).1 (ps.get ⟨k, hk⟩).2 =
              .ok (some (ns.get ⟨k, hn2⟩)) ∧ ns.get ⟨k, hn2⟩ ≠ "" := by
        intro k hk hn2
        have h := hb (k + 1) (by simpa using Nat.succ_lt_succ hk)
          (by simpa using Nat.succ_lt_succ hn2)
        have e1 : idx + (k + 1) = (idx + 1) + k := by omega
        simpa [e1] using h
      have hnd2 : tmp ∉ List.map Prod.fst ps ∧ (List.map Prod.fst ps).Nodup :=
        List.nodup_cons.mp hnd
      have hdnd2 : tmp.withName n ∉ destsOf ps ns ∧ (destsOf ps ns).Nodup :=
        List.nodup_cons.mp hdnd
      have hrec := ih ns (idx + 1)
        ⟨acc.renamed + 1, acc.skipped, acc.failed,
          replUpdate env current acc.replacement orig (tmp.withName n)⟩
        ⟨insert (tmp.withName n) (st.fs.erase tmp), st.rctr + 1, st.uctr⟩
        (by simpa using hlen) hb2
        (by
          intro q hq
          have hq1 : q.1 ∈ st.fs := hfs q (by simp [hq])
          have hq2 : q.1 ≠ tmp := by
            intro h
            exact hnd2.1 (h ▸ List.mem_map_of_mem Prod.fst hq)
          simp [Finset.mem_insert, Finset.mem_erase, hq1, hq2])
        hnd2.2
        (by
          intro d hd
          have hd1 : d ∉ st.fs := hdfs d (by simp [destsOf, hd])
          have hd2 : d ≠ tmp.withName n := by
            intro h; exact hdnd2.1 (h ▸ hd)
          simp [Finset.mem_insert, Finset.mem_erase, hd1, hd2])
        hdnd2.2
      have e1 : acc.renamed + 1 + ps.length = acc.renamed + (ps.length + 1) := by
        omega
      have e2 : st.rctr + 1 + ps.length = st.rctr + (ps.length + 1) := by omega
      simp only [phase2, hstep, hrec, destsOf, replFold, fsAfter2,
        List.length_cons, e1, e2]

/-- Phase 2 when the naming function answers falsy for every pair and
no rename fails: every pair is skipped and restored. -/
theorem phase2_null_run (env : Env) (current : Option Path)
    (build : RenameBuilder) (hok : ∀ n, env.renameOk n = true)
    (hb : ∀ i t o, ∃ v, build i t o = .ok v ∧ strFalsy v = true) :
    ∀ (pairs : List (Path × Path)) (idx : Nat) (acc : Result) (st : St),
      (∀ q ∈ pairs, q.1 ∈ st.fs) →
      (pairs.map Prod.fst).Nodup →
      phase2 env current build pairs idx acc st =
        .ok ({ acc with skipped := acc.skipped + pairs.length },
             ⟨fsRestore st.fs pairs, st.rctr + pairs.length, st.uctr⟩) := by
  intro pairs
  induction pairs with
  | nil => intro idx acc st _ _; simp [phase2, fsRestore]
  | cons pr ps ih =>
    obtain ⟨tmp, orig⟩ := pr
    intro idx acc st hfs hnd
    obtain ⟨v, hbv, hv⟩ := hb idx tmp orig
    have htmp : tmp ∈ st.fs := hfs (tmp, orig) (by simp)
    have hstep := pairStep_null_pos env current build idx tmp orig acc st v
      hbv hv htmp (hok st.rctr)
    have hnd2 : tmp ∉ List.map Prod.fst ps ∧ (List.map Prod.fst ps).Nodup :=
      List.nodup_cons.mp hnd
    have hrec := ih (idx + 1) { acc with skipped := acc.skipped + 1 }
      ⟨insert orig (st.fs.erase tmp), st.rctr + 1, st.uctr⟩
      (by
        intro q hq
        have hq1 : q.1 ∈ st.fs := hfs q (by simp [hq])
        have hq2 : q.1 ≠ tmp := by
          intro h
          exact hnd2.1 (h ▸ List.mem_map_of_mem Prod.fst hq)
        simp [Finset.mem_insert, Finset.mem_erase, hq1, hq2])
      hnd2.2
    have e1 : acc.skipped + 1 + ps.length = acc.skipped + (ps.length + 1) := by
      omega
    have e2 : st.rctr + 1 + ps.length = st.rctr + (ps.length + 1) := by omega
    simp only [phase2, hstep, hrec, fsRestore, List.length_cons, e1, e2]

/-- Membership in the filesystem left by a fully successful phase 2:
the destinations, plus everything that was not a temp file. -/
theorem mem_fsAfter2 :
    ∀ (pairs : List (Path × Path)) (names : List String) (fs : FS),
      pairs.length = names.length →
      (pairs.map Prod.fst).Nodup →
      (∀ q ∈ pairs, q.1 ∈ fs) →
      (destsOf pairs names).Nodup →
      (∀ d ∈ destsOf pairs names, d ∉ fs) →
      ∀ p : Path,
        (p ∈ fsAfter2 fs pairs names ↔
          p ∈ destsOf pairs names ∨ (p ∈ fs ∧ p ∉ pairs.map Prod.fst)) := by
  intro pairs
  induction pairs with
  | nil => intro names fs _ _ _ _ _ p; simp [fsAfter2, destsOf]
  | cons pr ps ih =>
    obtain ⟨tmp, orig⟩ := pr
    intro names fs hlen hnd hfs hdnd hdfs p
    cases names with
    | nil => simp at hlen
    | cons n ns =>
      have htmp : tmp ∈ fs := hfs (tmp, orig) (by simp)
      have hd0 : tmp.withName n ∉ fs := hdfs _ (by simp [destsOf])
      have hnd2 : tmp ∉ List.map Prod.fst ps ∧ (List.map Prod.fst ps).Nodup :=
        List.nodup_cons.mp hnd
      have hdnd2 : tmp.withName n ∉ destsOf ps ns ∧ (destsOf ps ns).Nodup :=
        List.nodup_cons.mp hdnd
      have hsubfst : ∀ x ∈ List.map Prod.fst ps, x ∈ fs := by
        intro x hx
        obtain ⟨q, hq, rfl⟩ := List.mem_map.mp hx
        exact hfs q (by simp [hq])
      have hrec := ih ns (insert (tmp.withName n) (fs.erase tmp))
        (by simpa using hlen)
        hnd2.2
        (by
          intro q hq
          have hq1 : q.1 ∈ fs := hfs q (by simp [hq])
          have hq2 : q.1 ≠ tmp := by
            intro h
            exact hnd2.1 (h ▸ List.mem_map_of_mem Prod.fst hq)
          simp [Finset.mem_insert, Finset.mem_erase, hq1, hq2])
        hdnd2.2
        (by
          intro d hd
          have hd1 : d ∉ fs := hdfs d (by simp [destsOf, hd])
          have hd2 : d ≠ tmp.withName n := by
            intro h; exact hdnd2.1 (h ▸ hd)
          simp [Finset.mem_insert, Finset.mem_erase, hd1, hd2])
        p
      simp only [fsAfter2, destsOf] at hrec ⊢
      rw [hrec]
      by_cases hp1 : p = tmp.withName n
      · subst hp1
        have : tmp.withName n ∉ List.map Prod.fst ps := by
          intro hmem; exact hd0 (hsubfst _ hmem)
        simp [Finset.mem_insert, hdnd2.1, this]
      · by_cases hp2 : p = tmp
        · have hne : tmp ≠ tmp.withName n := fun h => hp1 (hp2.trans h)
          have h1 : tmp ∉ destsOf ps ns := by
            intro hmem; exact hdfs tmp (by simp [destsOf, hmem]) htmp
          rw [hp2]
          simp [Finset.mem_insert, Finset.mem_erase, h1, hne, List.map_cons,
            List.mem_cons]
        · simp only [Finset.mem_insert, Finset.mem_erase, List.mem_cons,
            List.map_cons]
          tauto

/-- Membership in the filesystem after a phase-2 run that restores
every file: the originals, plus everything that was not a temp file. -/
theorem mem_fsRestore :
    ∀ (pairs : List (Path × Path)) (fs : FS),
      (pairs.map Prod.fst).Nodup →
      (∀ q ∈ pairs, q.1 ∈ fs) →
      (∀ q ∈ pairs, ∀ q2 ∈ pairs, q.2 ≠ q2.1) →
      ∀ p : Path,
        (p ∈ fsRestore fs pairs ↔
          p ∈ pairs.map Prod.snd ∨ (p ∈ fs ∧ p ∉ pairs.map Prod.fst)) := by
  intro pairs
  induction pairs with
  | nil => intro fs _ _ _ p; simp [fsRestore]
  | cons pr ps ih =>
    obtain ⟨tmp, orig⟩ := pr
    intro fs hnd hfs hsep p
    have htmp : tmp ∈ fs := hfs (tmp, orig) (by simp)
    have hnd2 : tmp ∉ List.map Prod.fst ps ∧ (List.map Prod.fst ps).Nodup :=
      List.nodup_cons.mp hnd
    have hOrigTmp : orig ≠ tmp :=
      hsep (tmp, orig) (by simp) (tmp, orig) (by simp)
    have hOrigFst : orig ∉ List.map Prod.fst ps := by
      intro hmem
      obtain ⟨q, hq, hqe⟩ := List.mem_map.mp hmem
      exact hsep (tmp, orig) (by simp) q (by simp [hq]) hqe.symm
    have hTmpSnd : tmp ∉ List.map Prod.snd ps := by
      intro hmem
      obtain ⟨q, hq, hqe⟩ := List.mem_map.mp hmem
      exact hsep q (by simp [hq]) (tmp, orig) (by simp) (by simp [hqe])
    have hrec := ih (insert orig (fs.erase tmp))
      hnd2.2
      (by
        intro q hq
        have hq1 : q.1 ∈ fs := hfs q (by simp [hq])
        have hq2 : q.1 ≠ tmp := by
          intro h
          exact hnd2.1 (h ▸ List.mem_map_of_mem Prod.fst hq)
        simp [Finset.mem_insert, Finset.mem_erase, hq1, hq2])
      (by
        intro q hq q2 hq2
        exact hsep q (by simp [hq]) q2 (by simp [hq2]))
      p
    simp only [fsRestore] at hrec ⊢
    rw [hrec]
    by_cases hp1 : p = orig
    · rw [hp1]
      simp [Finset.mem_insert, hOrigFst, List.mem_cons, List.map_cons]
    · by_cases hp2 : p = tmp
      · rw [hp2]
        simp [Finset.mem_insert, Finset.mem_erase, hTmpSnd, hOrigTmp,
          Ne.symm hOrigTmp, List.mem_cons, List.map_cons]
      · simp only [Finset.mem_insert, Finset.mem_erase, List.mem_cons,
          List.map_cons]
        tauto

/-! ## Phase-2 facts that hold for every failure pattern -/

/-- As long as the naming function returns (rather than raises), a
phase-2 iteration always produces a result. -/
theorem pairStep_isOk (env : Env) (current : Option Path)
    (build : RenameBuilder) (idx : Nat) (tmp orig : Path) (acc : Result)
    (st : St) (hb : ∃ v, build idx tmp orig = .ok v) :
    ∃ out, pairStep env current build idx tmp orig acc st = .ok out := by
  obtain ⟨v, hv⟩ := hb
  simp only [pairStep, hv]
  split_ifs <;> exact ⟨_, rfl⟩

/-- As long as the naming function returns, phase 2 always produces a
result, whatever the pattern of rename failures. -/
theorem phase2_isOk (env : Env) (current : Option Path)
    (build : RenameBuilder) (hb : ∀ i t o, ∃ v, build i t o = .ok v) :
    ∀ (pairs : List (Path × Path)) (idx : Nat) (acc : Result) (st : St),
      ∃ out, phase2 env current build pairs idx acc st = .ok out := by
  intro pairs
  induction pairs with
  | nil => intro idx acc st; exact ⟨_, rfl⟩
  | cons pr ps ih =>
    obtain ⟨tmp, orig⟩ := pr
    intro idx acc st
    obtain ⟨out1, hout1⟩ :=
      pairStep_isOk env current build idx tmp orig acc st (hb idx tmp orig)
    obtain ⟨acc1, st1⟩ := out1
    obtain ⟨out2, hout2⟩ := ih (idx + 1) acc1 st1
    refine ⟨out2, ?_⟩
    simp only [phase2, hout1]
    exact hout2

/-- A phase-2 iteration never changes the recorded replacement unless
the pair original resolves to the path of interest. -/
theorem pairStep_repl_pres (env : Env) (current : Option Path)
    (build : RenameBuilder) (idx : Nat) (tmp orig : Path) (acc : Result)
    (st : St) (acc1 : Result) (st1 : St)
    (hnm : ∀ c, current = some c → env.resolve orig ≠ env.resolve c)
    (h : pairStep env current build idx tmp orig acc st = .ok (acc1, st1)) :
    acc1.replacement = acc.replacement := by
  rcases hbv : build idx tmp orig with e | v
  · simp [pairStep, hbv] at h
  · simp only [pairStep, hbv] at h
    split at h
    · simp only [nullStep, Except.ok.injEq, Prod.mk.injEq] at h
      obtain ⟨h1, -⟩ := h
      split at h1 <;> simp [← h1]
    · split at h
      · split at h <;>
          (simp only [Except.ok.injEq, Prod.mk.injEq] at h;
            obtain ⟨h1, -⟩ := h; simp [← h1])
      · split at h
        · cases current with
          | none =>
            dsimp only at h
            simp only [Except.ok.injEq, Prod.mk.injEq] at h
            obtain ⟨h1, -⟩ := h
            simp [← h1]
          | some c =>
            dsimp only at h
            rw [if_neg (hnm c rfl)] at h
            simp only [Except.ok.injEq, Prod.mk.injEq] at h
            obtain ⟨h1, -⟩ := h
            simp [← h1]
        · simp only [Except.ok.injEq, Prod.mk.injEq] at h
          obtain ⟨h1, -⟩ := h
          simp [← h1]

/-- When no original resolves to the path of interest (in particular
when there is no path of interest), phase 2 never records a
replacement. -/
theorem phase2_repl_pres (env : Env) (current : Option Path)
    (build : RenameBuilder) :
    ∀ (pairs : List (Path × Path)) (idx : Nat) (acc : Result) (st : St)
      (out : Result × St),
      (∀ q ∈ pairs, ∀ c, current = some c →
        env.resolve q.2 ≠ env.resolve c) →
      phase2 env current build pairs idx acc st = .ok out →
      out.1.replacement = acc.replacement := by
  intro pairs
  induction pairs with
  | nil =>
    intro idx acc st out _ h
    simp only [phase2, Except.ok.injEq] at h
    rw [← h]
  | cons pr ps ih =>
    obtain ⟨tmp, orig⟩ := pr
    intro idx acc st out hnm h
    rcases hps : pairStep env current build idx tmp orig acc st with e | p
    · simp [phase2, hps] at h
    · obtain ⟨acc1, st1⟩ := p
      simp only [phase2, hps] at h
      have h1 := ih (idx + 1) acc1 st1 out
        (by intro q hq c hc; exact hnm q (by simp [hq]) c hc) h
      have h2 := pairStep_repl_pres env current build idx tmp orig acc st acc1 st1
        (by intro c hc; exact hnm (tmp, orig) (by simp) c hc) hps
      rw [h1, h2]

/-- When every OS rename call fails, a phase-2 iteration leaves both
the replacement and the renamed counter untouched. -/
theorem pairStep_allfail (env : Env) (current : Option Path)
    (build : RenameBuilder) (idx : Nat) (tmp orig : Path) (acc : Result)
    (st : St) (acc1 : Result) (st1 : St)
    (hfail : ∀ n, env.renameOk n = false)
    (h : pairStep env current build idx tmp orig acc st = .ok (acc1, st1)) :
    acc1.replacement = acc.replacement ∧ acc1.renamed = acc.renamed := by
  have hren : ∀ (st2 : St) (src d : Path),
      osRename env st2 src d = (false, ⟨st2.fs, st2.rctr + 1, st2.uctr⟩) := by
    intro st2 src d
    refine osRename_neg ?_
    rintro ⟨-, hk⟩
    simp [hfail] at hk
  rcases hbv : build idx tmp orig with e | v
  · simp [pairStep, hbv] at h
  · simp only [pairStep, hbv] at h
    split at h
    · simp only [nullStep, hren, Bool.false_eq_true, if_false,
        Except.ok.injEq, Prod.mk.injEq] at h
      obtain ⟨h1, -⟩ := h
      simp [← h1]
    · split at h
      · simp only [hren, Bool.false_eq_true, if_false, Except.ok.injEq,
          Prod.mk.injEq] at h
        obtain ⟨h1, -⟩ := h
        simp [← h1]
      · simp only [hren, Bool.false_eq_true, if_false, Except.ok.injEq,
          Prod.mk.injEq] at h
        obtain ⟨h1, -⟩ := h
        simp [← h1]

/-- When every OS rename call fails, phase 2 renames nothing and never
records a replacement (each pair degrades to skip or fail). -/
theorem phase2_allfail (env : Env) (current : Option Path)
    (build : RenameBuilder) (hfail : ∀ n, env.renameOk n = false) :
    ∀ (pairs : List (Path × Path)) (idx : Nat) (acc : Result) (st : St)
      (out : Result × St),
      phase2 env current build pairs idx acc st = .ok out →
      out.1.replacement = acc.replacement ∧ out.1.renamed = acc.renamed := by
  intro pairs
  induction pairs with
  | nil =>
    intro idx acc st out h
    simp only [phase2, Except.ok.injEq] at h
    rw [← h]
    exact ⟨rfl, rfl⟩
  | cons pr ps ih =>
    obtain ⟨tmp, orig⟩ := pr
    intro idx acc st out h
    rcases hps : pairStep env current build idx tmp orig acc st with e | p
    · simp [phase2, hps] at h
    · obtain ⟨acc1, st1⟩ := p
      simp only [phase2, hps] at h
      have h1 := ih (idx + 1) acc1 st1 out h
      have h2 := pairStep_allfail env current build idx tmp orig acc st acc1 st1
        hfail hps
      exact ⟨h1.1.trans h2.1, h1.2.trans h2.2⟩

/-- Where a changed replacement can come from: a phase-2 iteration
either keeps the accumulator's replacement, or its pair original
resolves to the path of interest, the naming function answered a truthy
name, and the replacement is that destination. -/
theorem pairStep_repl_cases (env : Env) (c : Path) (build : RenameBuilder)
    (idx : Nat) (tmp orig : Path) (acc : Result) (st : St) (acc1 : Result)
    (st1 : St)
    (h : pairStep env (some c) build idx tmp orig acc st = .ok (acc1, st1)) :
    acc1.replacement = acc.replacement ∨
      ∃ n, build idx tmp orig = .ok (some n) ∧ n ≠ "" ∧
        env.resolve orig = env.resolve c ∧
        acc1.replacement = some (tmp.withName n) := by
  rcases hbv : build idx tmp orig with e | v
  · simp [pairStep, hbv] at h
  · simp only [pairStep, hbv] at h
    split at h
    · left
      simp only [nullStep, Except.ok.injEq, Prod.mk.injEq] at h
      obtain ⟨h1, -⟩ := h
      split at h1 <;> simp [← h1]
    · rename_i hsf
      split at h
      · left
        split at h <;>
          (simp only [Except.ok.injEq, Prod.mk.injEq] at h;
            obtain ⟨h1, -⟩ := h; simp [← h1])
      · split at h
        · cases v with
          | none => simp [strFalsy] at hsf
          | some n =>
            have hn : n ≠ "" := by simpa [strFalsy] using hsf
            dsimp only [Option.getD_some] at h
            by_cases hm : env.resolve orig = env.resolve c
            · rw [if_pos hm] at h
              simp only [Except.ok.injEq, Prod.mk.injEq] at h
              obtain ⟨h1, -⟩ := h
              right
              exact ⟨n, rfl, hn, hm, by simp [← h1]⟩
            · rw [if_neg hm] at h
              left
              simp only [Except.ok.injEq, Prod.mk.injEq] at h
              obtain ⟨h1, -⟩ := h
              simp [← h1]
        · left
          simp only [Except.ok.injEq, Prod.mk.injEq] at h
          obtain ⟨h1, -⟩ := h
          simp [← h1]

/-- Soundness of the recorded replacement over a whole phase-2 run: a
changed replacement is the truthy-named destination of some pair whose
original resolves to the path of interest. -/
theorem phase2_repl_cases (env : Env) (c : Path) (build : RenameBuilder) :
    ∀ (pairs : List (Path × Path)) (idx : Nat) (acc : Result) (st : St)
      (out : Result × St),
      phase2 env (some c) build pairs idx acc st = .ok out →
      out.1.replacement = acc.replacement ∨
        ∃ tmp orig n k, (tmp, orig) ∈ pairs ∧
          build k tmp orig = .ok (some n) ∧ n ≠ "" ∧
          env.resolve orig = env.resolve c ∧
          out.1.replacement = some (tmp.withName n) := by
  intro pairs
  induction pairs with
  | nil =>
    intro idx acc st out h
    simp only [phase2, Except.ok.injEq] at h
    left
    rw [← h]
  | cons pr ps ih =>
    obtain ⟨tmp0, orig0⟩ := pr
    intro idx acc st out h
    rcases hps : pairStep env (some c) build idx tmp0 orig0 acc st with e | p
    · simp [phase2, hps] at h
    · obtain ⟨acc1, st1⟩ := p
      simp only [phase2, hps] at h
      rcases ih (idx + 1) acc1 st1 out h with h1 | ⟨tmp, orig, n, k, hm, hb, hn, hres, hrep⟩
      · rcases pairStep_repl_cases env c build idx tmp0 orig0 acc st acc1 st1
            hps with h2 | ⟨n, hb, hn, hres, hrep⟩
        · left; rw [h1, h2]
        · right
          exact ⟨tmp0, orig0, n, idx, by simp, hb, hn, hres, by rw [h1, hrep]⟩
      · right
        exact ⟨tmp, orig, n, k, by simp [hm], hb, hn, hres, hrep⟩

/-- Phase 2 consults the naming function only at the 1-based positions
of the surviving pairs: naming functions that agree there produce
identical runs. -/
theorem phase2_congr (env : Env) (current : Option Path) :
    ∀ (pairs : List (Path × Path)) (b1 b2 : RenameBuilder) (idx : Nat)
      (acc : Result) (st : St),
      (∀ (k : Nat) (hk : k < pairs.length),
        b1 (idx + k) (pairs.get ⟨k, hk⟩).1 (pairs.get ⟨k, hk⟩).2 =
          b2 (idx + k) (pairs.get ⟨k, hk⟩).1 (pairs.get ⟨k, hk⟩).2) →
      phase2 env current b1 pairs idx acc st =
        phase2 env current b2 pairs idx acc st := by
  intro pairs
  induction pairs with
  | nil => intro b1 b2 idx acc st _; rfl
  | cons pr ps ih =>
    obtain ⟨tmp, orig⟩ := pr
    intro b1 b2 idx acc st hagree
    have h0 : b1 idx tmp orig = b2 idx tmp orig := by
      simpa using hagree 0 (by simp)
    have hps : pairStep env current b1 idx tmp orig acc st =
        pairStep env current b2 idx tmp orig acc st := by
      simp only [pairStep, h0]
    have hagree2 : ∀ (k : Nat) (hk : k < ps.length),
        b1 ((idx + 1) + k) (ps.get ⟨k, hk⟩).1 (ps.get ⟨k, hk⟩).2 =
          b2 ((idx + 1) + k) (ps.get ⟨k, hk⟩).1 (ps.get ⟨k, hk⟩).2 := by
      intro k hk
      have h := hagree (k + 1) (by simpa using Nat.succ_lt_succ hk)
      have e1 : idx + (k + 1) = (idx + 1) + k := by omega
      simpa [e1] using h
    rcases hps2 : pairStep env current b2 idx tmp orig acc st with e | p
    · simp only [phase2, hps, hps2]
    · obtain ⟨acc1, st1⟩ := p
      simp only [phase2, hps, hps2]
      exact ih b1 b2 (idx + 1) acc1 st1 hagree2

/-! ## The recorded replacement after successful runs -/

/-- With no path of interest the fold never changes the replacement. -/
theorem replFold_none (env : Env) :
    ∀ (ps : List (Path × Path)) (ns : List String) (r : Option Path),
      replFold env none r ps ns = r := by
  intro ps
  induction ps with
  | nil => intro ns r; cases ns <;> rfl
  | cons q ps ih =>
    intro ns r
    obtain ⟨tmp, orig⟩ := q
    cases ns with
    | nil => rfl
    | cons n ns => simpa [replFold, replUpdate] using ih ns r

/-- When no original resolves to the path of interest the fold never
changes the replacement. -/
theorem replFold_nomatch (env : Env) (c : Path) :
    ∀ (ps : List (Path × Path)) (ns : List String) (r : Option Path),
      (∀ q ∈ ps, env.resolve q.2 ≠ env.resolve c) →
      replFold env (some c) r ps ns = r := by
  intro ps
  induction ps with
  | nil => intro ns r _; cases ns <;> rfl
  | cons q ps ih =>
    intro ns r hnm
    obtain ⟨tmp, orig⟩ := q
    cases ns with
    | nil => rfl
    | cons n ns =>
      have h1 : env.resolve orig ≠ env.resolve c := hnm (tmp, orig) (by simp)
      have h2 := ih ns r (by intro q hq; exact hnm q (by simp [hq]))
      simpa [replFold, replUpdate, if_neg h1] using h2

/-- When the last matching pair is `(tmp, orig)` with name `n`, the fold
returns that destination, whatever came before. -/
theorem replFold_last (env : Env) (c : Path) :
    ∀ (ps1 : List (Path × Path)) (ns1 : List String) (tmp orig : Path)
      (n : String) (ps2 : List (Path × Path)) (ns2 : List String)
      (r : Option Path),
      ps1.length = ns1.length →
      env.resolve orig = env.resolve c →
      (∀ q ∈ ps2, env.resolve q.2 ≠ env.resolve c) →
      replFold env (some c) r (ps1 ++ (tmp, orig) :: ps2) (ns1 ++ n :: ns2) =
        some (tmp.withName n) := by
  intro ps1
  induction ps1 with
  | nil =>
    intro ns1 tmp orig n ps2 ns2 r hlen hres hnm
    have : ns1 = [] := List.eq_nil_of_length_eq_zero hlen.symm
    subst this
    simp only [List.nil_append, replFold, replUpdate, if_pos hres]
    exact replFold_nomatch env c ps2 ns2 _ hnm
  | cons q ps1 ih =>
    intro ns1 tmp orig n ps2 ns2 r hlen hres hnm
    obtain ⟨t0, o0⟩ := q
    cases ns1 with
    | nil => simp at hlen
    | cons m ns1 =>
      simp only [List.cons_append, replFold]
      exact ih ns1 tmp orig n ps2 ns2 _ (by simpa using hlen) hres hnm

/-! ## Whole runs of two_phase_rename -/

/-- A fully successful run: all inputs exist and are distinct, the temp
paths are fresh and distinct, the naming function answers a truthy,
distinct, non-colliding name for every surviving pair (1-based).  Every
file is renamed, nothing is skipped or failed, the final filesystem
holds exactly the destinations plus the untouched files, and the
replacement is the fold over the resolve-matches. -/
theorem two_phase_ok_run (env : Env) (images : List Path)
    (build : RenameBuilder) (current : Option Path) (fs0 : FS)
    (names : List String)
    (hok : ∀ n, env.renameOk n = true)
    (hnd : images.Nodup)
    (hsub : ∀ i ∈ images, i ∈ fs0)
    (hlen : images.length = names.length)
    (htnd : (tempsOf env 0 images).Nodup)
    (htfs : ∀ t ∈ tempsOf env 0 images, t ∉ fs0)
    (hbuild : ∀ (k : Nat) (hk : k < ((tempsOf env 0 images).zip images).length)
        (hn : k < names.length),
      build (1 + k) (((tempsOf env 0 images).zip images).get ⟨k, hk⟩).1
          (((tempsOf env 0 images).zip images).get ⟨k, hk⟩).2 =
        .ok (some (names.get ⟨k, hn⟩)) ∧ names.get ⟨k, hn⟩ ≠ "")
    (hdnd : (destsOf ((tempsOf env 0 images).zip images) names).Nodup)
    (hdt : ∀ d ∈ destsOf ((tempsOf env 0 images).zip images) names,
      d ∉ tempsOf env 0 images)
    (hdfs : ∀ d ∈ destsOf ((tempsOf env 0 images).zip images) names,
      d ∈ fs0 → d ∈ images) :
    two_phase_rename env images build current fs0 =
      .ok (⟨images.length, 0, 0,
            replFold env current none ((tempsOf env 0 images).zip images) names⟩,
           ⟨fsAfter2 (fsAfter1 env fs0 0 images)
              ((tempsOf env 0 images).zip images) names,
            images.length + images.length, images.length⟩) ∧
    (∀ p : Path,
      p ∈ fsAfter2 (fsAfter1 env fs0 0 images)
          ((tempsOf env 0 images).zip images) names ↔
        p ∈ destsOf ((tempsOf env 0 images).zip images) names ∨
          (p ∈ fs0 ∧ p ∉ images)) := by
  have htlen : (tempsOf env 0 images).length = images.length :=
    tempsOf_length env 0 images
  have hplen : ((tempsOf env 0 images).zip images).length = images.length := by
    simp [List.length_zip, htlen]
  have hmapfst :
      ((tempsOf env 0 images).zip images).map Prod.fst = tempsOf env 0 images :=
    List.map_fst_zip _ _ (le_of_eq htlen)
  have hp1 := phase1_ok_run env hok images ⟨fs0, 0, 0⟩ hnd hsub
  have hp1' : phase1 env images ⟨fs0, 0, 0⟩ =
      ((tempsOf env 0 images).zip images,
       ⟨fsAfter1 env fs0 0 images, images.length, images.length⟩) := by
    simpa using hp1
  have hm1 := mem_fsAfter1 env images fs0 0 hnd hsub htnd htfs
  have hq : ∀ q ∈ (tempsOf env 0 images).zip images,
      q.1 ∈ fsAfter1 env fs0 0 images := by
    intro q hqm
    have h1 : q.1 ∈ tempsOf env 0 images :=
      hmapfst ▸ List.mem_map_of_mem Prod.fst hqm
    exact (hm1 q.1).mpr (Or.inl h1)
  have hdfs2 : ∀ d ∈ destsOf ((tempsOf env 0 images).zip images) names,
      d ∉ fsAfter1 env fs0 0 images := by
    intro d hd hmem
    rcases (hm1 d).mp hmem with h1 | ⟨h2, h3⟩
    · exact hdt d hd h1
    · exact h3 (hdfs d hd h2)
  have hndfst : (((tempsOf env 0 images).zip images).map Prod.fst).Nodup := by
    rw [hmapfst]; exact htnd
  have h2run := phase2_ok_run env current build hok
    ((tempsOf env 0 images).zip images) names 1 ⟨0, 0, 0, none⟩
    ⟨fsAfter1 env fs0 0 images, images.length, images.length⟩
    (hplen.trans hlen) hbuild hq hndfst hdfs2 hdnd
  constructor
  · simp only [two_phase_rename, hp1']
    rw [h2run]
    simp [hplen]
  · intro p
    have hm2 := mem_fsAfter2 ((tempsOf env 0 images).zip images) names
      (fsAfter1 env fs0 0 images) (hplen.trans hlen) hndfst hq hdnd hdfs2 p
    rw [hm2, hmapfst, hm1 p]
    have hfs0temps : p ∈ fs0 → p ∉ tempsOf env 0 images := by
      intro h1 h2; exact htfs p h2 h1
    tauto

/-- A run in which the naming function answers falsy for every pair and
no rename fails: everything is skipped, restored, and the filesystem is
unchanged as a set. -/
theorem two_phase_null_run (env : Env) (images : List Path)
    (build : RenameBuilder) (current : Option Path) (fs0 : FS)
    (hok : ∀ n, env.renameOk n = true)
    (hnd : images.Nodup)
    (hsub : ∀ i ∈ images, i ∈ fs0)
    (htnd : (tempsOf env 0 images).Nodup)
    (htfs : ∀ t ∈ tempsOf env 0 images, t ∉ fs0)
    (hb : ∀ i t o, ∃ v, build i t o = .ok v ∧ strFalsy v = true) :
    two_phase_rename env images build current fs0 =
      .ok (⟨0, images.length, 0, none⟩,
           ⟨fsRestore (fsAfter1 env fs0 0 images)
              ((tempsOf env 0 images).zip images),
            images.length + images.length, images.length⟩) ∧
    (∀ p : Path,
      p ∈ fsRestore (fsAfter1 env fs0 0 images)
          ((tempsOf env 0 images).zip images) ↔ p ∈ fs0) := by
  have htlen : (tempsOf env 0 images).length = images.length :=
    tempsOf_length env 0 images
  have hplen : ((tempsOf env 0 images).zip images).length = images.length := by
    simp [List.length_zip, htlen]
  have hmapfst :
      ((tempsOf env 0 images).zip images).map Prod.fst = tempsOf env 0 images :=
    List.map_fst_zip _ _ (le_of_eq htlen)
  have hmapsnd :
      ((tempsOf env 0 images).zip images).map Prod.snd = images :=
    List.map_snd_zip _ _ (ge_of_eq htlen)
  have hp1 := phase1_ok_run env hok images ⟨fs0, 0, 0⟩ hnd hsub
  have hp1' : phase1 env images ⟨fs0, 0, 0⟩ =
      ((tempsOf env 0 images).zip images,
       ⟨fsAfter1 env fs0 0 images, images.length, images.length⟩) := by
    simpa using hp1
  have hm1 := mem_fsAfter1 env images fs0 0 hnd hsub htnd htfs
  have hq : ∀ q ∈ (tempsOf env 0 images).zip images,
      q.1 ∈ fsAfter1 env fs0 0 images := by
    intro q hqm
    have h1 : q.1 ∈ tempsOf env 0 images :=
      hmapfst ▸ List.mem_map_of_mem Prod.fst hqm
    exact (hm1 q.1).mpr (Or.inl h1)
  have hndfst : (((tempsOf env 0 images).zip images).map Prod.fst).Nodup := by
    rw [hmapfst]; exact htnd
  have hsep : ∀ q ∈ (tempsOf env 0 images).zip images,
      ∀ q2 ∈ (tempsOf env 0 images).zip images, q.2 ≠ q2.1 := by
    intro q hqm q2 hq2m he
    have h1 : q.2 ∈ images := hmapsnd ▸ List.mem_map_of_mem Prod.snd hqm
    have h2 : q2.1 ∈ tempsOf env 0 images :=
      hmapfst ▸ List.mem_map_of_mem Prod.fst hq2m
    exact htfs q2.1 h2 (he ▸ hsub q.2 h1)
  have h2run := phase2_null_run env current build hok hb
    ((tempsOf env 0 images).zip images) 1 ⟨0, 0, 0, none⟩
    ⟨fsAfter1 env fs0 0 images, images.length, images.length⟩ hq hndfst
  constructor
  · simp only [two_phase_rename, hp1']
    rw [h2run]
    simp [hplen]
  · intro p
    have hm2 := mem_fsRestore ((tempsOf env 0 images).zip images)
      (fsAfter1 env fs0 0 images) hndfst hq hsep p
    rw [hm2, hmapfst, hmapsnd, hm1 p]
    have hfs0temps : p ∈ fs0 → p ∉ tempsOf env 0 images := by
      intro h1 h2; exact htfs p h2 h1
    have himgfs : p ∈ images → p ∈ fs0 := hsub p
    tauto

/-- A run in which every OS rename fails: everything is dropped in
phase 1, all three counters stay zero, the filesystem is untouched. -/
theorem two_phase_allfail_run (env : Env) (images : List Path)
    (build : RenameBuilder) (current : Option Path) (fs0 : FS)
    (hfail : ∀ n, env.renameOk n = false) :
    two_phase_rename env images build current fs0 =
      .ok (⟨0, 0, 0, none⟩, ⟨fs0, images.length, images.length⟩) := by
  have hp1 := phase1_fail_run env hfail images ⟨fs0, 0, 0⟩
  have hp1' : phase1 env images ⟨fs0, 0, 0⟩ =
      ([], ⟨fs0, images.length, images.length⟩) := by simpa using hp1
  simp only [two_phase_rename, hp1']
  rfl

/-- As long as the naming function never raises, the operation always
returns a tuple, for every pattern of rename failures. -/
theorem two_phase_isOk (env : Env) (images : List Path)
    (build : RenameBuilder) (current : Option Path) (fs0 : FS)
    (hb : ∀ i t o, ∃ v, build i t o = .ok v) :
    ∃ out, two_phase_rename env images build current fs0 = .ok out := by
  obtain ⟨out, hout⟩ := phase2_isOk env current build hb
    (phase1 env images ⟨fs0, 0, 0⟩).1 1 ⟨0, 0, 0, none⟩
    (phase1 env images ⟨fs0, 0, 0⟩).2
  exact ⟨out, hout⟩

/-- The destinations of a second run over the files `F` with names that
reproduce each file: rewriting a file final name to itself gives the
file back. -/
theorem destsOf_zip_base (env : Env) :
    ∀ (u : Nat) (F : List Path),
      destsOf ((tempsOf env u F).zip F) (F.map Path.base) = F := by
  intro u F
  induction F generalizing u with
  | nil => rfl
  | cons f F ih =>
    show (f.withName (tmpName env u f)).withName f.base ::
        destsOf ((tempsOf env (u + 1) F).zip F) (F.map Path.base) = f :: F
    rw [ih (u + 1)]
    cases f
    rfl

/-! ## The `with_name` error path: agreement with the plain model -/

/-- When a rename call reports success. -/
theorem osRename_fst (env : Env) (st : St) (src dest : Path) :
    (osRename env st src dest).1 = true ↔
      (src ∈ st.fs ∧ env.renameOk st.rctr = true) := by
  by_cases hc : src ∈ st.fs ∧ env.renameOk st.rctr = true
  · simp [osRename, hc]
  · simp [osRename, hc]

/-- A logged `none` outcome never changes the replacement. -/
theorem replUpdateL_none (env : Env) (current : Option Path)
    (r : Option Path) (orig : Path) :
    replUpdateL env current r orig none = r := by
  cases current <;> rfl

/-- Without a path of interest no logged outcome changes the
replacement. -/
theorem replUpdateL_none_current (env : Env) (r : Option Path)
    (orig : Path) (o : Option Path) :
    replUpdateL env none r orig o = r := by
  cases o <;> rfl

/-- Phase 1 agrees with its refined variant when every input has a
nonempty final name and every temp name is valid. -/
theorem phase1V_agree (env : Env) :
    ∀ (images : List Path) (st : St),
      (∀ img ∈ images, img.base ≠ "") →
      (∀ (u : Nat), ∀ img ∈ images, validName (tmpName env u img) = true) →
      phase1V env images st = .ok (phase1 env images st) := by
  intro images
  induction images with
  | nil => intro st _ _; rfl
  | cons img rest ih =>
    intro st hbase htmp
    have h1 : ¬(img.base = "" ∨ validName (tmpName env st.uctr img) = false) := by
      rintro (h | h)
      · exact hbase img (by simp) h
      · rw [htmp st.uctr img (by simp)] at h
        exact absurd h (by simp)
    have h2 := ih (osRename env ⟨st.fs, st.rctr, st.uctr + 1⟩ img
        (img.withName (tmpName env st.uctr img))).2
      (by intro i hi; exact hbase i (by simp [hi]))
      (by intro u i hi; exact htmp u i (by simp [hi]))
    simp only [phase1V, phase1, if_neg h1, h2]

/-- A phase-2 iteration agrees with its refined variant when the naming
function raises, answers falsy, or answers a valid name. -/
theorem pairStepV_agree (env : Env) (current : Option Path)
    (build : RenameBuilder) (idx : Nat) (tmp orig : Path) (acc : Result)
    (st : St)
    (hb : ∀ v, build idx tmp orig = .ok v →
      strFalsy v = true ∨ validName (v.getD "") = true) :
    pairStepV env current build idx tmp orig acc st =
      pairStep env current build idx tmp orig acc st := by
  rcases hbv : build idx tmp orig with e | v
  · simp only [pairStepV, pairStep, hbv]
  · rcases hb v hbv with h | h
    · simp only [pairStepV, pairStep, hbv, h, if_true]
    · simp only [pairStepV, pairStep, hbv, h]
      by_cases hsf : strFalsy v = true
      · simp [hsf]
      · simp [hsf]

/-- Phase 2 agrees with its refined variant when the naming function
never answers a truthy invalid name. -/
theorem phase2V_agree (env : Env) (current : Option Path)
    (build : RenameBuilder)
    (hb : ∀ i t o v, build i t o = .ok v →
      strFalsy v = true ∨ validName (v.getD "") = true) :
    ∀ (pairs : List (Path × Path)) (idx : Nat) (acc : Result) (st : St),
      phase2V env current build pairs idx acc st =
        phase2 env current build pairs idx acc st := by
  intro pairs
  induction pairs with
  | nil => intro idx acc st; rfl
  | cons pr ps ih =>
    obtain ⟨tmp, orig⟩ := pr
    intro idx acc st
    have hps := pairStepV_agree env current build idx tmp orig acc st
      (fun v hv => hb idx tmp orig v hv)
    rcases h2 : pairStep env current build idx tmp orig acc st with e | p
    · simp only [phase2V, phase2, hps, h2]
    · obtain ⟨acc1, st1⟩ := p
      simp only [phase2V, phase2, hps, h2]
      exact ih (idx + 1) acc1 st1

/-- The refined run agrees with the plain run under the same
no-invalid-name conditions, and in particular returns a tuple. -/
theorem two_phase_renameV_agree (env : Env) (images : List Path)
    (build : RenameBuilder) (current : Option Path) (fs0 : FS)
    (hbase : ∀ img ∈ images, img.base ≠ "")
    (htmp : ∀ (u : Nat), ∀ img ∈ images, validName (tmpName env u img) = true)
    (hb : ∀ i t o v, build i t o = .ok v →
      strFalsy v = true ∨ validName (v.getD "") = true) :
    two_phase_renameV env images build current fs0 =
      two_phase_rename env images build current fs0 := by
  simp only [two_phase_renameV, two_phase_rename,
    phase1V_agree env images ⟨fs0, 0, 0⟩ hbase htmp]
  exact phase2V_agree env current build hb (phase1 env images ⟨fs0, 0, 0⟩).1 1
    ⟨0, 0, 0, none⟩ (phase1 env images ⟨fs0, 0, 0⟩).2

/-! ## The outcome log: erasure and replacement semantics -/

/-- One phase-2 iteration, read against its logged outcome: the
replacement is updated exactly by the outcome, and the outcome is
`some d` precisely when the iteration renames the file to `d` (the
`renamed` counter grows and the file moves). -/
theorem pairStep_log (env : Env) (current : Option Path)
    (build : RenameBuilder) (idx : Nat) (tmp orig : Path) (acc : Result)
    (st : St) (acc1 : Result) (st1 : St)
    (h : pairStep env current build idx tmp orig acc st = .ok (acc1, st1)) :
    acc1.replacement =
      replUpdateL env current acc.replacement orig
        (pairOutcome env build idx tmp orig st) ∧
    ((∃ d, pairOutcome env build idx tmp orig st = some d ∧
        acc1.renamed = acc.renamed + 1 ∧
        st1 = ⟨insert d (st.fs.erase tmp), st.rctr + 1, st.uctr⟩) ∨
      (pairOutcome env build idx tmp orig st = none ∧
        acc1.renamed = acc.renamed)) := by
  rcases hbv : build idx tmp orig with e | v
  · simp [pairStep, hbv] at h
  · simp only [pairStep, pairOutcome, hbv] at h ⊢
    by_cases hsf : strFalsy v = true
    · rw [if_pos hsf] at h
      rw [if_pos hsf, replUpdateL_none]
      simp only [nullStep, Except.ok.injEq, Prod.mk.injEq] at h
      obtain ⟨h1, -⟩ := h
      refine ⟨?_, Or.inr ⟨rfl, ?_⟩⟩ <;> (split at h1 <;> simp [← h1])
    · rw [if_neg hsf] at h ⊢
      by_cases hd : tmp.withName (v.getD "") ∈ st.fs
      · rw [if_pos hd] at h ⊢
        rw [replUpdateL_none]
        split at h <;>
          (simp only [Except.ok.injEq, Prod.mk.injEq] at h;
            obtain ⟨h1, -⟩ := h;
            exact ⟨by simp [← h1], Or.inr ⟨rfl, by simp [← h1]⟩⟩)
      · rw [if_neg hd] at h ⊢
        by_cases hr : (osRename env st tmp (tmp.withName (v.getD ""))).1 = true
        · rw [if_pos hr] at h
          obtain ⟨hc1, hc2⟩ :=
            (osRename_fst env st tmp (tmp.withName (v.getD ""))).mp hr
          rw [if_pos (⟨hc1, hc2⟩ : tmp ∈ st.fs ∧ env.renameOk st.rctr = true)]
          rw [osRename_pos hc1 hc2] at h
          cases current with
          | none =>
            dsimp only at h
            simp only [Except.ok.injEq, Prod.mk.injEq] at h
            obtain ⟨h1, h2⟩ := h
            rw [replUpdateL_none_current]
            exact ⟨by simp [← h1], Or.inl ⟨_, rfl, by simp [← h1], h2.symm⟩⟩
          | some c =>
            dsimp only at h
            by_cases hm : env.resolve orig = env.resolve c
            · rw [if_pos hm] at h
              simp only [Except.ok.injEq, Prod.mk.injEq] at h
              obtain ⟨h1, h2⟩ := h
              refine ⟨?_, Or.inl ⟨_, rfl, by simp [← h1], h2.symm⟩⟩
              simp [replUpdateL, hm, ← h1]
            · rw [if_neg hm] at h
              simp only [Except.ok.injEq, Prod.mk.injEq] at h
              obtain ⟨h1, h2⟩ := h
              refine ⟨?_, Or.inl ⟨_, rfl, by simp [← h1], h2.symm⟩⟩
              simp [replUpdateL, hm, ← h1]
        · rw [if_neg hr] at h
          have hcond : ¬(tmp ∈ st.fs ∧ env.renameOk st.rctr = true) :=
            fun hc => hr ((osRename_fst env st tmp _).mpr hc)
          rw [if_neg hcond, replUpdateL_none]
          simp only [Except.ok.injEq, Prod.mk.injEq] at h
          obtain ⟨h1, -⟩ := h
          exact ⟨by simp [← h1], Or.inr ⟨rfl, by simp [← h1]⟩⟩

/-- The logged run computes exactly the plain run: dropping the log
gives `phase2`. -/
theorem phase2L_erase (env : Env) (current : Option Path)
    (build : RenameBuilder) :
    ∀ (pairs : List (Path × Path)) (idx : Nat) (acc : Result) (st : St),
      phase2 env current build pairs idx acc st =
        Except.map (fun x => (x.1, x.2.1))
          (phase2L env current build pairs idx acc st) := by
  intro pairs
  induction pairs with
  | nil => intro idx acc st; rfl
  | cons pr ps ih =>
    obtain ⟨tmp, orig⟩ := pr
    intro idx acc st
    rcases hps : pairStep env current build idx tmp orig acc st with e | p
    · simp only [phase2, phase2L, hps]; rfl
    · obtain ⟨acc1, st1⟩ := p
      simp only [phase2, phase2L, hps]
      rcases hrec : phase2L env current build ps (idx + 1) acc1 st1 with e2 | q
      · rw [ih (idx + 1) acc1 st1, hrec]
      · obtain ⟨acc2, st2, log⟩ := q
        rw [ih (idx + 1) acc1 st1, hrec]
        rfl

/-- The replacement of a logged run is the fold of its outcomes. -/
theorem phase2L_replacement (env : Env) (current : Option Path)
    (build : RenameBuilder) :
    ∀ (pairs : List (Path × Path)) (idx : Nat) (acc : Result) (st : St)
      (acc2 : Result) (st2 : St) (log : List (Option Path)),
      phase2L env current build pairs idx acc st = .ok (acc2, st2, log) →
      acc2.replacement = replFoldL env current acc.replacement pairs log := by
  intro pairs
  induction pairs with
  | nil =>
    intro idx acc st acc2 st2 log h
    simp only [phase2L, Except.ok.injEq, Prod.mk.injEq] at h
    obtain ⟨h1, -, h3⟩ := h
    rw [← h1, ← h3]
    rfl
  | cons pr ps ih =>
    obtain ⟨tmp, orig⟩ := pr
    intro idx acc st acc2 st2 log h
    rcases hps : pairStep env current build idx tmp orig acc st with e | p
    · simp [phase2L, hps] at h
    · obtain ⟨acc1, st1⟩ := p
      simp only [phase2L, hps] at h
      rcases hrec : phase2L env current build ps (idx + 1) acc1 st1 with e2 | q
      · rw [hrec] at h; simp at h
      · obtain ⟨acc2s, st2s, logs⟩ := q
        rw [hrec] at h
        simp only [Except.ok.injEq, Prod.mk.injEq] at h
        obtain ⟨h1, -, h3⟩ := h
        have hstep :=
          (pairStep_log env current build idx tmp orig acc st acc1 st1 hps).1
        have hih := ih (idx + 1) acc1 st1 acc2s st2s logs hrec
        rw [← h1, ← h3]
        show acc2s.replacement = replFoldL env current acc.replacement
          ((tmp, orig) :: ps) (pairOutcome env build idx tmp orig st :: logs)
        rw [hih, hstep]
        rfl

/-- When every matching pair's rename failed (other pairs may have
succeeded), the fold leaves the replacement unchanged. -/
theorem replFoldL_nomatch (env : Env) (c : Path) :
    ∀ (ps : List (Path × Path)) (os : List (Option Path)) (r : Option Path),
      (∀ q o, (q, o) ∈ ps.zip os →
        env.resolve q.2 = env.resolve c → o = none) →
      replFoldL env (some c) r ps os = r := by
  intro ps
  induction ps with
  | nil => intro os r _; cases os <;> rfl
  | cons q ps ih =>
    obtain ⟨tmp, orig⟩ := q
    intro os r hno
    cases os with
    | nil => rfl
    | cons o os =>
      have hupd : replUpdateL env (some c) r orig o = r := by
        rcases o with _ | d
        · exact replUpdateL_none env (some c) r orig
        · by_cases hm : env.resolve orig = env.resolve c
          · have := hno (tmp, orig) (some d) (by simp) hm
            simp at this
          · simp [replUpdateL, hm]
      simp only [replFoldL, hupd]
      exact ih os r (fun q2 o2 hmem hm => hno q2 o2 (by simp [hmem]) hm)

/-- A changed fold value is the destination of a successfully renamed
matching pair. -/
theorem replFoldL_sound (env : Env) (c : Path) :
    ∀ (ps : List (Path × Path)) (os : List (Option Path)) (r : Option Path),
      replFoldL env (some c) r ps os = r ∨
        ∃ tmp orig d, ((tmp, orig), some d) ∈ ps.zip os ∧
          env.resolve orig = env.resolve c ∧
          replFoldL env (some c) r ps os = some d := by
  intro ps
  induction ps with
  | nil => intro os r; left; cases os <;> rfl
  | cons q ps ih =>
    obtain ⟨tmp, orig⟩ := q
    intro os r
    cases os with
    | nil => left; rfl
    | cons o os =>
      simp only [replFoldL]
      rcases o with _ | d
      · rw [replUpdateL_none]
        rcases ih os r with h | ⟨t2, o2, d2, hm, hres, heq⟩
        · left; exact h
        · right; exact ⟨t2, o2, d2, by simp [hm], hres, heq⟩
      · by_cases hm : env.resolve orig = env.resolve c
        · rw [show replUpdateL env (some c) r orig (some d) = some d by
            simp [replUpdateL, hm]]
          rcases ih os (some d) with h | ⟨t2, o2, d2, hm2, hres2, heq2⟩
          · right; exact ⟨tmp, orig, d, by simp, hm, h⟩
          · right; exact ⟨t2, o2, d2, by simp [hm2], hres2, heq2⟩
        · rw [show replUpdateL env (some c) r orig (some d) = r by
            simp [replUpdateL, hm]]
          rcases ih os r with h | ⟨t2, o2, d2, hm2, hres2, heq2⟩
          · left; exact h
          · right; exact ⟨t2, o2, d2, by simp [hm2], hres2, heq2⟩

/-- When the last matching pair that renamed successfully went to `d`,
the fold returns `d`. -/
theorem replFoldL_last (env : Env) (c : Path) :
    ∀ (ps1 : List (Path × Path)) (os1 : List (Option Path))
      (tmp orig d : Path) (ps2 : List (Path × Path))
      (os2 : List (Option Path)) (r : Option Path),
      ps1.length = os1.length →
      env.resolve orig = env.resolve c →
      (∀ q o, (q, o) ∈ ps2.zip os2 →
        env.resolve q.2 = env.resolve c → o = none) →
      replFoldL env (some c) r (ps1 ++ (tmp, orig) :: ps2)
          (os1 ++ some d :: os2) = some d := by
  intro ps1
  induction ps1 with
  | nil =>
    intro os1 tmp orig d ps2 os2 r hlen hres hno
    have hos : os1 = [] := List.eq_nil_of_length_eq_zero hlen.symm
    subst hos
    simp only [List.nil_append, replFoldL]
    rw [show replUpdateL env (some c) r orig (some d) = some d by
      simp [replUpdateL, hres]]
    exact replFoldL_nomatch env c ps2 os2 (some d) hno
  | cons q ps1 ih =>
    obtain ⟨t0, o0⟩ := q
    intro os1 tmp orig d ps2 os2 r hlen hres hno
    cases os1 with
    | nil => simp at hlen
    | cons m os1 =>
      simp only [List.cons_append, replFoldL]
      exact ih os1 tmp orig d ps2 os2 _ (by simpa using hlen) hres hno

/-! ## The claims -/



/-- C1.  For a valid batch (existing, distinct inputs; fresh, distinct
temp paths; a naming function that answers a truthy, distinct,
non-colliding name for every 1-based index) the operation returns
`(N, 0, 0, ·)`, every destination exists afterwards, and no temp path
remains; in particular on `[a.jpg, b.jpg]` with names `img_{idx}.jpg`
and path-of-interest `b.jpg` it returns `(2, 0, 0, /f/img_2.jpg)`. -/
theorem c1_valid_batch_renames_all (env : Env) (images : List Path)
    (build : RenameBuilder) (current : Option Path) (fs0 : FS)
    (names : List String)
    (hok : ∀ n, env.renameOk n = true)
    (hnd : images.Nodup)
    (hsub : ∀ i ∈ images, i ∈ fs0)
    (hlen : images.length = names.length)
    (htnd : (tempsOf env 0 images).Nodup)
    (htfs : ∀ t ∈ tempsOf env 0 images, t ∉ fs0)
    (hbuild : ∀ (k : Nat) (hk : k < ((tempsOf env 0 images).zip images).length)
        (hn : k < names.length),
      build (1 + k) (((tempsOf env 0 images).zip images).get ⟨k, hk⟩).1
          (((tempsOf env 0 images).zip images).get ⟨k, hk⟩).2 =
        .ok (some (names.get ⟨k, hn⟩)) ∧ names.get ⟨k, hn⟩ ≠ "")
    (hdnd : (destsOf ((tempsOf env 0 images).zip images) names).Nodup)
    (hdt : ∀ d ∈ destsOf ((tempsOf env 0 images).zip images) names,
      d ∉ tempsOf env 0 images)
    (hdfs : ∀ d ∈ destsOf ((tempsOf env 0 images).zip images) names,
      d ∈ fs0 → d ∈ images) :
    two_phase_rename env images build current fs0 =
      .ok (⟨images.length, 0, 0,
            replFold env current none ((tempsOf env 0 images).zip images) names⟩,
           ⟨fsAfter2 (fsAfter1 env fs0 0 images)
              ((tempsOf env 0 images).zip images) names,
            images.length + images.length, images.length⟩) ∧
    (∀ d ∈ destsOf ((tempsOf env 0 images).zip images) names,
      d ∈ fsAfter2 (fsAfter1 env fs0 0 images)
        ((tempsOf env 0 images).zip images) names) ∧
    (∀ t ∈ tempsOf env 0 images,
      t ∉ fsAfter2 (fsAfter1 env fs0 0 images)
        ((tempsOf env 0 images).zip images) names) ∧
    two_phase_rename envA [pa, pb] buildImg (some pb) {pa, pb} =
      .ok (⟨2, 0, 0, some pimg2⟩, ⟨{pimg1, pimg2}, 4, 2⟩) := by
  obtain ⟨heq, hmem⟩ := two_phase_ok_run env images build current fs0 names
    hok hnd hsub hlen htnd htfs hbuild hdnd hdt hdfs
  refine ⟨heq, ?_, ?_, by decide⟩
  · intro d hd
    exact (hmem d).mpr (Or.inl hd)
  · intro t ht hmemF
    rcases (hmem t).mp hmemF with h1 | ⟨h2, -⟩
    · exact hdt t h1 ht
    · exact htfs t ht h2

/-- Witness for C1: the fully evaluated two-file scenario. -/
theorem c1_valid_batch_renames_all_witness :
    two_phase_rename envA [pa, pb] buildImg (some pb) ({pa, pb} : FS) =
      .ok (⟨2, 0, 0, some pimg2⟩, ⟨{pimg1, pimg2}, 4, 2⟩) :=
  (c1_valid_batch_renames_all envA [pa, pb] buildImg (some pb) {pa, pb}
    ["img_1.jpg", "img_2.jpg"] (fun _ => rfl) (by decide) (by decide) (by decide)
    (by decide) (by decide) (by decide) (by decide) (by decide)
    (by decide)).2.2.2

/-- C2 counterexample: two uncaught exception paths.  A naming
function that raises propagates, because `build_name` is called outside
any `try`; and a naming function that does NOT raise but answers a
separator-containing name makes `tmp_path.with_name(new_name)` raise
`ValueError`, also outside the `try`.  The claim that the operation
always returns a tuple is false as stated. -/
theorem c2_counterexample :
    two_phase_renameV envA [pa] buildRaise none ({pa} : FS) = .error () ∧
    two_phase_renameV envA [pa] buildSlash none ({pa} : FS) = .error () ∧
    buildSlash 1 (pa.withName (tmpName envA 0 pa)) pa = .ok (some "a/b.jpg") :=
  ⟨by decide, by decide, rfl⟩

/-- C2, amended: provided the naming function neither raises nor
answers a truthy name on which `Path.with_name` raises (one containing
a separator or equal to `"."`), and the inputs and uuid draws give
well-formed temp names, the operation never lets an exception
propagate: for every input batch and every pattern of OS rename
failures it returns a `(renamed, skipped, failed, replacement)` tuple,
and the refined model agrees with the plain one. -/
theorem c2_returns_tuple_for_safe_names (env : Env) (images : List Path)
    (build : RenameBuilder) (current : Option Path) (fs0 : FS)
    (hbase : ∀ img ∈ images, img.base ≠ "")
    (htmp : ∀ (u : Nat), ∀ img ∈ images, validName (tmpName env u img) = true)
    (hb : ∀ i t o, ∃ v, build i t o = .ok v ∧
      (strFalsy v = true ∨ validName (v.getD "") = true)) :
    two_phase_renameV env images build current fs0 =
      two_phase_rename env images build current fs0 ∧
    ∃ out, two_phase_renameV env images build current fs0 = .ok out := by
  have hb2 : ∀ i t o v, build i t o = .ok v →
      strFalsy v = true ∨ validName (v.getD "") = true := by
    intro i t o v hv
    obtain ⟨v2, hv2, hd⟩ := hb i t o
    rw [hv] at hv2
    injection hv2 with he
    exact he ▸ hd
  have hagree := two_phase_renameV_agree env images build current fs0
    hbase htmp hb2
  refine ⟨hagree, ?_⟩
  rw [hagree]
  exact two_phase_isOk env images build current fs0
    (fun i t o => ⟨(hb i t o).choose, (hb i t o).choose_spec.1⟩)

/-- Witness for C2: a safe constant naming function, path-safe uuid
draws. -/
theorem c2_returns_tuple_for_safe_names_witness :
    two_phase_renameV envD [pa] buildA none ({pa} : FS) =
      two_phase_rename envD [pa] buildA none ({pa} : FS) ∧
    ∃ out, two_phase_renameV envD [pa] buildA none ({pa} : FS) = .ok out :=
  c2_returns_tuple_for_safe_names envD [pa] buildA none {pa}
    (by decide)
    (fun u img h => by
      have he := List.mem_singleton.mp h
      subst he
      rfl)
    (fun i t o => ⟨some "a.jpg", rfl, Or.inr (by decide)⟩)

/-- C3 counterexample: one file, falsy name, failing restore — the run
returns `skipped = 1` and `failed = 1`, so the file contributes 2 to
the combined totals, not 1, and it stays under its temp name. -/
theorem c3_counterexample :
    two_phase_rename envB [pa] buildNone none ({pa} : FS) =
      .ok (⟨0, 1, 1, none⟩, ⟨{⟨"/f", "__rvtmp__0__a.jpg"⟩}, 2, 1⟩) ∧
    (1 : Nat) + 1 ≠ 1 :=
  ⟨by decide, by decide⟩

/-- C3, amended: when the naming function answers falsy and the restore
rename fails, the code counts the file both as skipped and as failed
(2 to the combined totals, not 1), and leaves it under its temp name. -/
theorem c3_null_name_failed_restore_double_counts (env : Env)
    (current : Option Path) (build : RenameBuilder) (idx : Nat)
    (tmp orig : Path) (acc : Result) (st : St)
    (rest : List (Path × Path)) (v : Option String)
    (hb : build idx tmp orig = .ok v) (hv : strFalsy v = true)
    (hfail : ¬(tmp ∈ st.fs ∧ env.renameOk st.rctr = true)) :
    phase2 env current build ((tmp, orig) :: rest) idx acc st =
      phase2 env current build rest (idx + 1)
        { acc with skipped := acc.skipped + 1, failed := acc.failed + 1 }
        ⟨st.fs, st.rctr + 1, st.uctr⟩ := by
  simp only [phase2,
    pairStep_null_neg env current build idx tmp orig acc st v hb hv hfail]

/-- Witness for C3: the amended step equation at a concrete state where
the restore rename fails. -/
theorem c3_null_name_failed_restore_double_counts_witness :
    phase2 envC none buildNone [(pb, pa)] 1 ⟨0, 0, 0, none⟩ ⟨{pb}, 0, 0⟩ =
      phase2 envC none buildNone [] 2 ⟨0, 1, 1, none⟩ ⟨{pb}, 1, 0⟩ :=
  c3_null_name_failed_restore_double_counts envC none buildNone 1 pb pa
    ⟨0, 0, 0, none⟩ ⟨{pb}, 0, 0⟩ [] none rfl rfl (by decide)

/-- C4 counterexample: after a successful run renaming `a.jpg` to
`img_1.jpg`, running again on `img_1.jpg` with the same naming function
renames it again (`renamed = 1`, `skipped = 0`), because phase 1 moves
the file out of the way before the collision check; the claim
`skipped == N` is false (`0 ≠ 1`). -/
theorem c4_counterexample :
    two_phase_rename envA [pa] buildImg none ({pa} : FS) =
      .ok (⟨1, 0, 0, none⟩, ⟨{pimg1}, 2, 1⟩) ∧
    two_phase_rename envA [pimg1] buildImg none ({pimg1} : FS) =
      .ok (⟨1, 0, 0, none⟩, ⟨{pimg1}, 2, 1⟩) ∧
    (0 : Nat) ≠ 1 :=
  ⟨by decide, by decide, by decide⟩

/-- C4, amended: re-running the renamer on files whose naming function
reproduces their current names yields `renamed == N`, `skipped == 0`,
`failed == 0` (each file is temp-renamed and then renamed back to the
same name, whose collision check sees nothing), and the file set is
unchanged. -/
theorem c4_second_run_renames_again (env : Env) (F : List Path)
    (build : RenameBuilder) (current : Option Path) (fs0 : FS)
    (hok : ∀ n, env.renameOk n = true)
    (hnd : F.Nodup)
    (hsub : ∀ f ∈ F, f ∈ fs0)
    (htnd : (tempsOf env 0 F).Nodup)
    (htfs : ∀ t ∈ tempsOf env 0 F, t ∉ fs0)
    (hbase : ∀ f ∈ F, f.base ≠ "")
    (hbuild : ∀ (k : Nat) (hk : k < ((tempsOf env 0 F).zip F).length),
      build (1 + k) (((tempsOf env 0 F).zip F).get ⟨k, hk⟩).1
          (((tempsOf env 0 F).zip F).get ⟨k, hk⟩).2 =
        .ok (some (((tempsOf env 0 F).zip F).get ⟨k, hk⟩).2.base)) :
    ∃ stF : St,
      two_phase_rename env F build current fs0 =
        .ok (⟨F.length, 0, 0,
              replFold env current none ((tempsOf env 0 F).zip F)
                (F.map Path.base)⟩, stF) ∧
      (∀ p : Path, p ∈ stF.fs ↔ p ∈ fs0) := by
  have htlen : (tempsOf env 0 F).length = F.length := tempsOf_length env 0 F
  have hplen : ((tempsOf env 0 F).zip F).length = F.length := by
    simp [List.length_zip, htlen]
  have hdests := destsOf_zip_base env 0 F
  have hsnd : ∀ (k : Nat) (hk : k < ((tempsOf env 0 F).zip F).length),
      (((tempsOf env 0 F).zip F).get ⟨k, hk⟩).2 = F.get ⟨k, by omega⟩ := by
    intro k hk
    simp [List.get_eq_getElem, List.getElem_zip]
  have hbuild2 : ∀ (k : Nat) (hk : k < ((tempsOf env 0 F).zip F).length)
      (hn : k < (F.map Path.base).length),
      build (1 + k) (((tempsOf env 0 F).zip F).get ⟨k, hk⟩).1
          (((tempsOf env 0 F).zip F).get ⟨k, hk⟩).2 =
        .ok (some ((F.map Path.base).get ⟨k, hn⟩)) ∧
      (F.map Path.base).get ⟨k, hn⟩ ≠ "" := by
    intro k hk hn
    have h1 := hbuild k hk
    have h2 : (F.map Path.base).get ⟨k, hn⟩ = (F.get ⟨k, by omega⟩).base := by
      simp [List.get_eq_getElem, List.getElem_map]
    rw [h2, ← hsnd k hk]
    exact ⟨h1, by rw [hsnd k hk]; exact hbase _ (List.get_mem F _ _)⟩
  obtain ⟨heq, hmem⟩ := two_phase_ok_run env F build current fs0
    (F.map Path.base) hok hnd hsub (by simp) htnd htfs hbuild2
    (by rw [hdests]; exact hnd)
    (by rw [hdests]; intro d hd ht; exact htfs d ht (hsub d hd))
    (by rw [hdests]; intro d hd _; exact hd)
  refine ⟨_, heq, ?_⟩
  intro p
  rw [hmem p, hdests]
  constructor
  · rintro (h | ⟨h, -⟩)
    · exact hsub p h
    · exact h
  · intro h
    by_cases hp : p ∈ F
    · exact Or.inl hp
    · exact Or.inr ⟨h, hp⟩

/-- Witness for C4: re-running on `img_1.jpg` with its own name. -/
theorem c4_second_run_renames_again_witness :
    ∃ stF : St,
      two_phase_rename envA [pimg1] buildImg none ({pimg1} : FS) =
        .ok (⟨1, 0, 0,
              replFold envA none none ((tempsOf envA 0 [pimg1]).zip [pimg1])
                ([pimg1].map Path.base)⟩, stF) ∧
      (∀ p : Path, p ∈ stF.fs ↔ p ∈ ({pimg1} : FS)) :=
  c4_second_run_renames_again envA [pimg1] buildImg none {pimg1}
    (fun _ => rfl) (by decide) (by decide) (by decide) (by decide) (by decide)
    (by decide)

/-- C5.  The returned replacement, settled through the per-pair
outcome log (`phase2L`, which erases to the real run): it is none
when no path of interest is supplied, or when nothing in the batch
resolves to it; the replacement of a run is the fold of the logged
outcomes, and a logged outcome is `some d` exactly when that pair's
final rename succeeded and moved the file to `d`; hence the
replacement stays none when every matching pair's rename failed
(whatever happened to the other pairs), any non-none replacement is
the destination of a successfully renamed matching pair, and when the
last successfully renamed matching pair went to `d` the run returns
`some d`. -/
theorem c5_replacement_characterisation :
    (∀ (env : Env) (images : List Path) (build : RenameBuilder) (fs0 : FS)
       (out : Result × St),
      two_phase_rename env images build none fs0 = .ok out →
      out.1.replacement = none) ∧
    (∀ (env : Env) (images : List Path) (build : RenameBuilder) (c : Path)
       (fs0 : FS) (out : Result × St),
      (∀ i ∈ images, env.resolve i ≠ env.resolve c) →
      two_phase_rename env images build (some c) fs0 = .ok out →
      out.1.replacement = none) ∧
    (∀ (env : Env) (images : List Path) (build : RenameBuilder)
       (current : Option Path) (fs0 : FS),
      two_phase_rename env images build current fs0 =
        Except.map (fun x => (x.1, x.2.1))
          (phase2L env current build (phase1 env images ⟨fs0, 0, 0⟩).1 1
            ⟨0, 0, 0, none⟩ (phase1 env images ⟨fs0, 0, 0⟩).2)) ∧
    (∀ (env : Env) (current : Option Path) (build : RenameBuilder)
       (pairs : List (Path × Path)) (idx : Nat) (acc : Result) (st : St)
       (acc2 : Result) (st2 : St) (log : List (Option Path)),
      phase2L env current build pairs idx acc st = .ok (acc2, st2, log) →
      acc2.replacement = replFoldL env current acc.replacement pairs log) ∧
    (∀ (env : Env) (current : Option Path) (build : RenameBuilder)
       (idx : Nat) (tmp orig : Path) (acc : Result) (st : St)
       (acc1 : Result) (st1 : St),
      pairStep env current build idx tmp orig acc st = .ok (acc1, st1) →
      ((∃ d, pairOutcome env build idx tmp orig st = some d ∧
          acc1.renamed = acc.renamed + 1 ∧
          st1 = ⟨insert d (st.fs.erase tmp), st.rctr + 1, st.uctr⟩) ∨
        (pairOutcome env build idx tmp orig st = none ∧
          acc1.renamed = acc.renamed))) ∧
    (∀ (env : Env) (c : Path) (build : RenameBuilder)
       (pairs : List (Path × Path)) (idx : Nat) (acc : Result) (st : St)
       (acc2 : Result) (st2 : St) (log : List (Option Path)),
      phase2L env (some c) build pairs idx acc st = .ok (acc2, st2, log) →
      (∀ q o, (q, o) ∈ pairs.zip log →
        env.resolve q.2 = env.resolve c → o = none) →
      acc2.replacement = acc.replacement) ∧
    (∀ (env : Env) (c : Path) (build : RenameBuilder)
       (pairs : List (Path × Path)) (idx : Nat) (acc : Result) (st : St)
       (acc2 : Result) (st2 : St) (log : List (Option Path)),
      phase2L env (some c) build pairs idx acc st = .ok (acc2, st2, log) →
      acc2.replacement = acc.replacement ∨
        ∃ tmp orig d, ((tmp, orig), some d) ∈ pairs.zip log ∧
          env.resolve orig = env.resolve c ∧
          acc2.replacement = some d) ∧
    (∀ (env : Env) (c : Path) (build : RenameBuilder)
       (ps1 ps2 : List (Path × Path)) (os1 os2 : List (Option Path))
       (tmp orig d : Path) (idx : Nat) (acc : Result) (st : St)
       (acc2 : Result) (st2 : St),
      phase2L env (some c) build (ps1 ++ (tmp, orig) :: ps2) idx acc st =
        .ok (acc2, st2, os1 ++ some d :: os2) →
      ps1.length = os1.length →
      env.resolve orig = env.resolve c →
      (∀ q o, (q, o) ∈ ps2.zip os2 →
        env.resolve q.2 = env.resolve c → o = none) →
      acc2.replacement = some d) := by
  refine ⟨?_, ?_, ?_, ?_, ?_, ?_, ?_, ?_⟩
  · intro env images build fs0 out h
    exact phase2_repl_pres env none build (phase1 env images ⟨fs0, 0, 0⟩).1 1
      ⟨0, 0, 0, none⟩ (phase1 env images ⟨fs0, 0, 0⟩).2 out
      (fun q _ c hc => Option.noConfusion hc) h
  · intro env images build c fs0 out hnm h
    refine phase2_repl_pres env (some c) build (phase1 env images ⟨fs0, 0, 0⟩).1 1
      ⟨0, 0, 0, none⟩ (phase1 env images ⟨fs0, 0, 0⟩).2 out ?_ h
    intro q hq c2 hc2
    have hq2 : q.2 ∈ images :=
      (phase1_snd_sublist env images ⟨fs0, 0, 0⟩).subset
        (List.mem_map_of_mem Prod.snd hq)
    have hcc : c2 = c := by injection hc2.symm
    rw [hcc]
    exact hnm q.2 hq2
  · intro env images build current fs0
    exact phase2L_erase env current build (phase1 env images ⟨fs0, 0, 0⟩).1 1
      ⟨0, 0, 0, none⟩ (phase1 env images ⟨fs0, 0, 0⟩).2
  · intro env current build pairs idx acc st acc2 st2 log h
    exact phase2L_replacement env current build pairs idx acc st acc2 st2 log h
  · intro env current build idx tmp orig acc st acc1 st1 h
    exact (pairStep_log env current build idx tmp orig acc st acc1 st1 h).2
  · intro env c build pairs idx acc st acc2 st2 log h hno
    rw [phase2L_replacement env (some c) build pairs idx acc st acc2 st2 log h]
    exact replFoldL_nomatch env c pairs log acc.replacement hno
  · intro env c build pairs idx acc st acc2 st2 log h
    rw [phase2L_replacement env (some c) build pairs idx acc st acc2 st2 log h]
    exact replFoldL_sound env c pairs log acc.replacement
  · intro env c build ps1 ps2 os1 os2 tmp orig d idx acc st acc2 st2 h hlen
      hres hno
    rw [phase2L_replacement env (some c) build _ idx acc st acc2 st2 _ h]
    exact replFoldL_last env c ps1 os1 tmp orig d ps2 os2 acc.replacement
      hlen hres hno

/-- Witness for C5: a path of interest that matches no input leaves the
replacement empty. -/
theorem c5_replacement_characterisation_witness :
    (∀ i ∈ [pa], envA.resolve i ≠ envA.resolve pb) ∧
    two_phase_rename envA [pa] buildImg (some pb) ({pa} : FS) =
      .ok (⟨1, 0, 0, none⟩, ⟨{pimg1}, 2, 1⟩) ∧
    ((⟨1, 0, 0, none⟩, (⟨{pimg1}, 2, 1⟩ : St)) :
        Result × St).1.replacement = none := by
  have h1 : ∀ i ∈ [pa], envA.resolve i ≠ envA.resolve pb := by decide
  have h2 : two_phase_rename envA [pa] buildImg (some pb) ({pa} : FS) =
      .ok (⟨1, 0, 0, none⟩, ⟨{pimg1}, 2, 1⟩) := by decide
  exact ⟨h1, h2, c5_replacement_characterisation.2.1 envA [pa] buildImg pb
    {pa} (⟨1, 0, 0, none⟩, ⟨{pimg1}, 2, 1⟩) h1 h2⟩

/-- C6.  A pair whose computed destination already exists is counted as
one skip, and the file is renamed back to its original name; on
`[a.jpg, b.jpg]` with `img_1.jpg` already on disk this gives totals
`(1, 1, 0, none)` with `a.jpg` restored and `b.jpg` renamed. -/
theorem c6_existing_destination_skips :
    (∀ (env : Env) (current : Option Path) (build : RenameBuilder)
       (idx : Nat) (tmp orig : Path) (acc : Result) (st : St)
       (rest : List (Path × Path)) (s : String),
      build idx tmp orig = .ok (some s) → s ≠ "" →
      tmp.withName s ∈ st.fs → tmp ∈ st.fs → env.renameOk st.rctr = true →
      phase2 env current build ((tmp, orig) :: rest) idx acc st =
        phase2 env current build rest (idx + 1)
          { acc with skipped := acc.skipped + 1 }
          ⟨insert orig (st.fs.erase tmp), st.rctr + 1, st.uctr⟩) ∧
    two_phase_rename envA [pa, pb] buildImg none {pa, pb, pimg1} =
      .ok (⟨1, 1, 0, none⟩, ⟨{pa, pimg1, pimg2}, 4, 2⟩) := by
  constructor
  · intro env current build idx tmp orig acc st rest s hb hs hd htmp hok
    simp only [phase2,
      pairStep_exists env current build idx tmp orig acc st s hb hs hd htmp hok]
  · decide

/-- Witness for C6: the step equation at a state where the destination
`a.jpg` is already on disk. -/
theorem c6_existing_destination_skips_witness :
    phase2 envA none buildA [(pb, pb)] 1 ⟨0, 0, 0, none⟩ ⟨{pa, pb}, 0, 0⟩ =
      phase2 envA none buildA [] 2 ⟨0, 1, 0, none⟩
        ⟨insert pb (({pa, pb} : FS).erase pb), 1, 0⟩ :=
  c6_existing_destination_skips.1 envA none buildA 1 pb pb ⟨0, 0, 0, none⟩
    ⟨{pa, pb}, 0, 0⟩ [] "a.jpg" rfl (by decide) (by decide) (by decide) rfl

/-- C7.  A falsy name with a successful restore leaves the file under
its original name and counts one skip; when the naming function answers
falsy for everything and no rename fails, the run returns
`(0, N, 0, none)` and the file set is unchanged. -/
theorem c7_null_names_restore_all (env : Env) (images : List Path)
    (build : RenameBuilder) (current : Option Path) (fs0 : FS)
    (hok : ∀ n, env.renameOk n = true)
    (hnd : images.Nodup)
    (hsub : ∀ i ∈ images, i ∈ fs0)
    (htnd : (tempsOf env 0 images).Nodup)
    (htfs : ∀ t ∈ tempsOf env 0 images, t ∉ fs0)
    (hb : ∀ i t o, ∃ v, build i t o = .ok v ∧ strFalsy v = true) :
    (∃ stF : St,
      two_phase_rename env images build current fs0 =
        .ok (⟨0, images.length, 0, none⟩, stF) ∧
      (∀ p : Path, p ∈ stF.fs ↔ p ∈ fs0)) ∧
    (∀ (env2 : Env) (current2 : Option Path) (build2 : RenameBuilder)
       (idx : Nat) (tmp orig : Path) (acc : Result) (st : St)
       (rest : List (Path × Path)) (v : Option String),
      build2 idx tmp orig = .ok v → strFalsy v = true →
      tmp ∈ st.fs → env2.renameOk st.rctr = true →
      phase2 env2 current2 build2 ((tmp, orig) :: rest) idx acc st =
        phase2 env2 current2 build2 rest (idx + 1)
          { acc with skipped := acc.skipped + 1 }
          ⟨insert orig (st.fs.erase tmp), st.rctr + 1, st.uctr⟩) := by
  constructor
  · obtain ⟨heq, hmem⟩ := two_phase_null_run env images build current fs0
      hok hnd hsub htnd htfs hb
    exact ⟨_, heq, hmem⟩
  · intro env2 current2 build2 idx tmp orig acc st rest v hb2 hv htmp hok2
    simp only [phase2,
      pairStep_null_pos env2 current2 build2 idx tmp orig acc st v hb2 hv htmp hok2]

/-- Witness for C7: both files skipped and restored. -/
theorem c7_null_names_restore_all_witness :
    ∃ stF : St,
      two_phase_rename envA [pa, pb] buildNone none ({pa, pb} : FS) =
        .ok (⟨0, 2, 0, none⟩, stF) ∧
      (∀ p : Path, p ∈ stF.fs ↔ p ∈ ({pa, pb} : FS)) :=
  (c7_null_names_restore_all envA [pa, pb] buildNone none {pa, pb}
    (fun _ => rfl) (by decide) (by decide) (by decide) (by decide)
    (fun _ _ _ => ⟨none, rfl, rfl⟩)).1

/-- C8.  Processing follows input order (the surviving originals form a
subsequence of the input); the naming function is consulted exactly at
the 1-based positions of the surviving pairs; and files dropped in
phase 1 contribute nothing to any counter (with every rename failing,
all three counters are zero). -/
theorem c8_order_index_and_dropped_files :
    (∀ (env : Env) (images : List Path) (st : St),
      List.Sublist ((phase1 env images st).1.map Prod.snd) images) ∧
    (∀ (env : Env) (current : Option Path) (pairs : List (Path × Path))
       (b1 b2 : RenameBuilder) (idx : Nat) (acc : Result) (st : St),
      (∀ (k : Nat) (hk : k < pairs.length),
        b1 (idx + k) (pairs.get ⟨k, hk⟩).1 (pairs.get ⟨k, hk⟩).2 =
          b2 (idx + k) (pairs.get ⟨k, hk⟩).1 (pairs.get ⟨k, hk⟩).2) →
      phase2 env current b1 pairs idx acc st =
        phase2 env current b2 pairs idx acc st) ∧
    (∀ (env : Env) (images : List Path) (b1 b2 : RenameBuilder)
       (current : Option Path) (fs0 : FS),
      (∀ (k : Nat) (hk : k < (phase1 env images ⟨fs0, 0, 0⟩).1.length),
        b1 (1 + k) ((phase1 env images ⟨fs0, 0, 0⟩).1.get ⟨k, hk⟩).1
            ((phase1 env images ⟨fs0, 0, 0⟩).1.get ⟨k, hk⟩).2 =
          b2 (1 + k) ((phase1 env images ⟨fs0, 0, 0⟩).1.get ⟨k, hk⟩).1
            ((phase1 env images ⟨fs0, 0, 0⟩).1.get ⟨k, hk⟩).2) →
      two_phase_rename env images b1 current fs0 =
        two_phase_rename env images b2 current fs0) ∧
    (∀ (env : Env) (images : List Path) (build : RenameBuilder)
       (current : Option Path) (fs0 : FS),
      (∀ n, env.renameOk n = false) →
      two_phase_rename env images build current fs0 =
        .ok (⟨0, 0, 0, none⟩, ⟨fs0, images.length, images.length⟩)) := by
  refine ⟨?_, ?_, ?_, ?_⟩
  · intro env images st
    exact phase1_snd_sublist env images st
  · intro env current pairs b1 b2 idx acc st hagree
    exact phase2_congr env current pairs b1 b2 idx acc st hagree
  · intro env images b1 b2 current fs0 hagree
    exact phase2_congr env current (phase1 env images ⟨fs0, 0, 0⟩).1 b1 b2 1
      ⟨0, 0, 0, none⟩ (phase1 env images ⟨fs0, 0, 0⟩).2 hagree
  · intro env images build current fs0 hfail
    exact two_phase_allfail_run env images build current fs0 hfail

/-- Witness for C8: with every rename failing, the run returns all
three counters zero. -/
theorem c8_order_index_and_dropped_files_witness :
    two_phase_rename envC [pa] buildImg none ({pa} : FS) =
      .ok (⟨0, 0, 0, none⟩, ⟨{pa}, 1, 1⟩) :=
  c8_order_index_and_dropped_files.2.2.2 envC [pa] buildImg none {pa}
    (fun _ => rfl)

/-! ## The file-listing service -/

/-- `pathLe` is total. -/
theorem pathLe_total :
    ∀ (a b : List String), (pathLe a b || pathLe b a) = true := by
  intro a
  induction a with
  | nil => intro b; simp [pathLe]
  | cons x as ih =>
    intro b
    cases b with
    | nil => simp [pathLe]
    | cons y bs =>
      by_cases hxy : x = y
      · subst hxy
        simpa [pathLe] using ih bs
      · rcases lt_or_gt_of_ne hxy with h | h
        · simp [pathLe, hxy, h]
        · simp [pathLe, hxy, Ne.symm hxy, h, not_lt_of_gt h]

/-- `pathLe` is transitive. -/
theorem pathLe_trans :
    ∀ (a b c : List String),
      pathLe a b = true → pathLe b c = true → pathLe a c = true := by
  intro a
  induction a with
  | nil => intro b c _ _; simp [pathLe]
  | cons x as ih =>
    intro b c h1 h2
    cases b with
    | nil => simp [pathLe] at h1
    | cons y bs =>
      cases c with
      | nil => simp [pathLe] at h2
      | cons z cs =>
        by_cases hxy : x = y <;> by_cases hyz : y = z
        · subst hxy; subst hyz
          simp only [pathLe, if_pos rfl] at h1 h2 ⊢
          exact ih bs cs h1 h2
        · subst hxy
          simp only [pathLe, if_pos rfl, if_neg hyz] at h2 ⊢
          exact h2
        · subst hyz
          simp only [pathLe, if_neg hxy] at h1 ⊢
          exact h1
        · simp only [pathLe, if_neg hxy, if_neg hyz, decide_eq_true_eq] at h1 h2
          have hxz : x < z := lt_trans h1 h2
          simp [pathLe, ne_of_lt hxz, hxz]

/-- Every path yielded by `iterdir` is a direct child of the base. -/
theorem itemsIterdir_parts (base : List String) (es : List Entry) :
    ∀ it ∈ itemsIterdir base es, ∃ n, it.parts = base ++ [n] := by
  intro it hit
  rw [itemsIterdir, List.mem_map] at hit
  obtain ⟨e, -, he⟩ := hit
  cases e with
  | file n r => exact ⟨n, by rw [← he]⟩
  | dir n cs => exact ⟨n, by rw [← he]⟩

/-- Every path yielded by `rglob` is a strict descendant of the base. -/
theorem itemsRglob_parts :
    ∀ (base : List String) (es : List Entry) (it : Item),
      it ∈ itemsRglob base es → ∃ rest, rest ≠ [] ∧ it.parts = base ++ rest
  | base, [], it, h => by simp [itemsRglob] at h
  | base, .file n r :: rest, it, h => by
    rw [itemsRglob, List.mem_cons] at h
    rcases h with h | h
    · exact ⟨[n], by simp, by rw [h]⟩
    · exact itemsRglob_parts base rest it h
  | base, .dir n cs :: rest, it, h => by
    rw [itemsRglob, List.mem_cons, List.mem_append] at h
    rcases h with h | h | h
    · exact ⟨[n], by simp, by rw [h]⟩
    · obtain ⟨r2, hr2, he⟩ := itemsRglob_parts (base ++ [n]) cs it h
      exact ⟨n :: r2, by simp, by rw [he]; simp⟩
    · exact itemsRglob_parts base rest it h

/-- The yield of `iter_image_files` on an existing directory. -/
theorem iter_image_files_ok (w : FsWorld) (folder : String)
    (recursive : Bool) (exts : Option (List String)) (children : List Entry)
    (h : w.dirOf (w.expand folder) = some children) :
    iter_image_files w folder recursive exts =
      .ok ((if recursive then itemsRglob [w.expand folder] children
            else itemsIterdir [w.expand folder] children).filter
        (keepItem (normalizeExtensions exts))) := by
  simp only [iter_image_files, h]

/-- The listing an existing directory produces. -/
theorem list_images_ok (w : FsWorld) (folder : String) (recursive : Bool)
    (exts : Option (List String)) (children : List Entry)
    (h : w.dirOf (w.expand folder) = some children) :
    list_images w folder recursive exts =
      .ok ((((if recursive then itemsRglob [w.expand folder] children
              else itemsIterdir [w.expand folder] children).filter
          (keepItem (normalizeExtensions exts))).map Item.parts).mergeSort
        pathLe) := by
  simp only [list_images, iter_image_files, h]

/-- C9.  For an existing directory, `list_images` returns exactly the
non-raising file entries of the traversal (direct children, or the
whole tree when recursive) whose lowercased suffix is in the normalized
allowed set (the default image set when none is given), sorted; when
not recursive every result is a direct child, when recursive a strict
descendant. -/
theorem c9_list_images_sorted_filtered :
    (∀ (w : FsWorld) (folder : String) (recursive : Bool)
       (exts : Option (List String)) (children : List Entry),
      w.dirOf (w.expand folder) = some children →
      ∃ out, list_images w folder recursive exts = .ok out ∧
        (∀ p : List String,
          p ∈ out ↔ ∃ it : Item,
            it ∈ (if recursive then itemsRglob [w.expand folder] children
                  else itemsIterdir [w.expand folder] children) ∧
            it.raises = false ∧ it.isFile = true ∧
            (suffixOf it.name).toLower ∈ normalizeExtensions exts ∧
            p = it.parts) ∧
        List.Pairwise (fun a b => pathLe a b = true) out) ∧
    (∀ (w : FsWorld) (folder : String) (exts : Option (List String))
       (children : List Entry) (out : List (List String)),
      w.dirOf (w.expand folder) = some children →
      list_images w folder false exts = .ok out →
      ∀ p ∈ out, ∃ n, p = [w.expand folder, n]) ∧
    (∀ (w : FsWorld) (folder : String) (exts : Option (List String))
       (children : List Entry) (out : List (List String)),
      w.dirOf (w.expand folder) = some children →
      list_images w folder true exts = .ok out →
      ∀ p ∈ out, ∃ rest, rest ≠ [] ∧ p = w.expand folder :: rest) ∧
    normalizeExtensions none = IMAGE_EXTENSIONS := by
  have hmem : ∀ (w : FsWorld) (folder : String) (recursive : Bool)
      (exts : Option (List String)) (children : List Entry)
      (p : List String),
      (p ∈ (((if recursive then itemsRglob [w.expand folder] children
              else itemsIterdir [w.expand folder] children).filter
          (keepItem (normalizeExtensions exts))).map Item.parts).mergeSort
        pathLe ↔
        ∃ it : Item,
          it ∈ (if recursive then itemsRglob [w.expand folder] children
                else itemsIterdir [w.expand folder] children) ∧
          it.raises = false ∧ it.isFile = true ∧
          (suffixOf it.name).toLower ∈ normalizeExtensions exts ∧
          p = it.parts) := by
    intro w folder recursive exts children p
    rw [List.mem_mergeSort, List.mem_map]
    constructor
    · rintro ⟨it, hit, rfl⟩
      rw [List.mem_filter] at hit
      obtain ⟨hm, hkeep⟩ := hit
      simp only [keepItem, Bool.and_eq_true, Bool.not_eq_true',
        List.contains, List.elem_iff] at hkeep
      exact ⟨it, hm, hkeep.1, hkeep.2.1, hkeep.2.2, rfl⟩
    · rintro ⟨it, hm, h1, h2, h3, rfl⟩
      refine ⟨it, List.mem_filter.mpr ⟨hm, ?_⟩, rfl⟩
      simp only [keepItem, Bool.and_eq_true, Bool.not_eq_true',
        List.contains, List.elem_iff]
      exact ⟨h1, h2, h3⟩
  refine ⟨?_, ?_, ?_, rfl⟩
  · intro w folder recursive exts children h
    refine ⟨_, list_images_ok w folder recursive exts children h, ?_, ?_⟩
    · intro p
      exact hmem w folder recursive exts children p
    · exact List.sorted_mergeSort pathLe_trans pathLe_total _
  · intro w folder exts children out h hout p hp
    rw [list_images_ok w folder false exts children h] at hout
    obtain rfl : _ = out := congrArg (fun e => e) (Except.ok.inj hout)
    obtain ⟨it, hm, -, -, -, rfl⟩ :=
      (hmem w folder false exts children p).mp hp
    simp only [if_neg (by simp : ¬(false = true))] at hm
    obtain ⟨n, hn⟩ := itemsIterdir_parts [w.expand folder] children it hm
    exact ⟨n, by rw [hn]; rfl⟩
  · intro w folder exts children out h hout p hp
    rw [list_images_ok w folder true exts children h] at hout
    obtain rfl : _ = out := congrArg (fun e => e) (Except.ok.inj hout)
    obtain ⟨it, hm, -, -, -, rfl⟩ :=
      (hmem w folder true exts children p).mp hp
    rw [if_pos rfl] at hm
    obtain ⟨rest, hne, he⟩ := itemsRglob_parts [w.expand folder] children it hm
    exact ⟨rest, hne, by rw [he]; rfl⟩

/-- Witness for C9: the demo folder, listed non-recursively with the
default extensions. -/
theorem c9_list_images_sorted_filtered_witness :
    ∃ out, list_images wDemo "/d" false none = .ok out ∧
      (∀ p : List String,
        p ∈ out ↔ ∃ it : Item,
          it ∈ (if false then itemsRglob [wDemo.expand "/d"]
                  [.file "x.JPG" false, .file "notes.txt" false,
                   .dir "sub" [.file "y.png" false]]
                else itemsIterdir [wDemo.expand "/d"]
                  [.file "x.JPG" false, .file "notes.txt" false,
                   .dir "sub" [.file "y.png" false]]) ∧
          it.raises = false ∧ it.isFile = true ∧
          (suffixOf it.name).toLower ∈ normalizeExtensions none ∧
          p = it.parts) ∧
      List.Pairwise (fun a b => pathLe a b = true) out :=
  c9_list_images_sorted_filtered.1 wDemo "/d" false none
    [.file "x.JPG" false, .file "notes.txt" false,
     .dir "sub" [.file "y.png" false]] rfl

/-- C10.  When the expanded folder is not a directory, both
`iter_image_files` and `list_images` raise the `ValueError` instead of
returning a listing; for an existing directory neither raises. -/
theorem c10_not_a_directory_raises :
    (∀ (w : FsWorld) (folder : String) (recursive : Bool)
       (exts : Option (List String)),
      w.dirOf (w.expand folder) = none →
      iter_image_files w folder recursive exts =
        .error ("Not a directory: " ++ w.expand folder) ∧
      list_images w folder recursive exts =
        .error ("Not a directory: " ++ w.expand folder)) ∧
    (∀ (w : FsWorld) (folder : String) (recursive : Bool)
       (exts : Option (List String)) (children : List Entry),
      w.dirOf (w.expand folder) = some children →
      (∃ out, iter_image_files w folder recursive exts = .ok out) ∧
      (∃ out, list_images w folder recursive exts = .ok out)) := by
  constructor
  · intro w folder recursive exts h
    constructor
    · simp only [iter_image_files, h]
    · simp only [list_images, iter_image_files, h]
  · intro w folder recursive exts children h
    constructor
    · exact ⟨_, iter_image_files_ok w folder recursive exts children h⟩
    · exact ⟨_, list_images_ok w folder recursive exts children h⟩

/-- Witness for C10: a world with no directories raises, the demo
folder lists. -/
theorem c10_not_a_directory_raises_witness :
    (iter_image_files wNone "/d" false none =
        .error ("Not a directory: " ++ wNone.expand "/d") ∧
      list_images wNone "/d" false none =
        .error ("Not a directory: " ++ wNone.expand "/d")) ∧
    (∃ out, list_images wDemo "/d" false none = .ok out) :=
  ⟨c10_not_a_directory_raises.1 wNone "/d" false none rfl,
   (c10_not_a_directory_raises.2 wDemo "/d" false none
      [.file "x.JPG" false, .file "notes.txt" false,
       .dir "sub" [.file "y.png" false]] rfl).2⟩

end Randora
